import Mathlib

/-!
# Verification of the `formatbreaker` combinator/context engine

A shallow embedding of `src/formatbreaker/core.py` (classes `Context`,
`Parser`, `Block`, `Section`, `Modifier`, `Translator`, `Repeat`, `Array`,
function `_spacer`) and the leaf parsers of `src/formatbreaker/basictypes.py`
that the claims need.

Python's `Context` is a `collections.ChainMap` of insertion-ordered `dict`s
whose frames are shared by reference between parent and child contexts
(`new_child`, `update_ext` mutate shared frames).  We model the mutable store
as an explicit heap of frames (`Heap`, a list of frames addressed by index)
and a `Ctx` as the list of frame ids of its chain, innermost first, exactly
mirroring `ChainMap.maps`.

The data-source collaborator (`formatbreaker.datasource.DataManager`),
`formatbreaker.util.validate_address_or_length` and the exception hierarchy
are not part of `src/`; they are modelled from the spec where needed (see
the doc comments marked `Modelled from the spec:`).  Addressing here is the
byte-mode model; bit-mode address arithmetic is outside the claims.
-/

namespace FormatBreaker

/-! ## Values stored in a Context

Python stores heterogeneous values: raw bytes, bools, ints, strings,
snapshot dicts (`dict(context)`), lists (`Array` results) and even the
`Success` sentinel class (which `Repeat.read`/`Array.read` store through the
`elif result is not None` branch). -/

inductive Value where
  | vInt (n : Int)
  | vStr (s : String)
  | vBool (b : Bool)
  | vBytes (bs : List Nat)
  | vDict (entries : List (String × Value))
  | vList (items : List Value)
  | vSuccess

/-! ## Python decimal / hexadecimal rendering

`str(i)` and `hex(addr)` as used by `Context.__setitem__` and
`Parser._store` / `_spacer`. -/

/-- One decimal digit character, `'0'`-`'9'`. -/
def decDigitChar (d : Nat) : Char := Char.ofNat (48 + d)

/-- Little-endian decimal digits, with enough fuel to exhaust `n`
(structural recursion keeps this kernel-reducible). -/
def decDigitsRevAux : Nat → Nat → List Nat
  | 0, _ => []
  | fuel + 1, n => if n = 0 then [] else n % 10 :: decDigitsRevAux fuel (n / 10)

/-- Little-endian decimal digits of `n` (empty for 0). -/
def decDigitsRev (n : Nat) : List Nat := decDigitsRevAux n n

/-- Python `str(n)` for a non-negative integer: decimal rendering. -/
def pyStr (n : Nat) : String :=
  if n = 0 then "0" else String.mk ((decDigitsRev n).reverse.map decDigitChar)

/-- One lowercase hexadecimal digit character, as produced by Python `hex`. -/
def hexDigitChar (d : Nat) : Char :=
  if d < 10 then Char.ofNat (48 + d) else Char.ofNat (87 + d)

/-- Little-endian hexadecimal digits of `n` (empty for 0). -/
def hexDigitsRevAux : Nat → Nat → List Nat
  | 0, _ => []
  | fuel + 1, n => if n = 0 then [] else n % 16 :: hexDigitsRevAux fuel (n / 16)

def hexDigitsRev (n : Nat) : List Nat := hexDigitsRevAux n n

/-- Python `hex(n)` for a non-negative integer: `"0x"` + lowercase hex. -/
def pyHex (n : Nat) : String :=
  if n = 0 then "0x0"
  else "0x" ++ String.mk ((hexDigitsRev n).reverse.map hexDigitChar)

/-- Python `s.isnumeric()` restricted to the ASCII decimal digits that the
engine itself generates: nonempty and all characters are digits. -/
def isNumericStr (s : String) : Bool :=
  !s.data.isEmpty && s.data.all Char.isDigit

/-- Python `int(s)` on a digit string. -/
def strToNat (s : String) : Nat :=
  s.data.foldl (fun a c => a * 10 + (c.toNat - 48)) 0

/-- Python `key.split(" ")` (split on every single space, keeping empty
pieces), over the character list. -/
def splitSpaceAux : List Char → List Char → List String
  | [], acc => [String.mk acc.reverse]
  | ch :: rest, acc =>
      if ch = ' ' then String.mk acc.reverse :: splitSpaceAux rest []
      else splitSpaceAux rest (ch :: acc)

/-- Python `key.split(" ")`. -/
def pySplitSpace (s : String) : List String :=
  splitSpaceAux s.data []

/-- Python `" ".join(parts)`. -/
def joinSpace : List String → String
  | [] => ""
  | [s] => s
  | s :: rest => s ++ " " ++ joinSpace rest

/-! ## Frames and the frame heap -/

/-- One mapping frame: an insertion-ordered association list, mirroring a
Python `dict`. -/
abbrev Frame := List (String × Value)

/-- `k in d` for one frame. -/
def Frame.hasKey (f : Frame) (k : String) : Bool :=
  f.any (fun e => e.1 == k)

/-- `d[k]` for one frame (first occurrence). -/
def Frame.get? (f : Frame) (k : String) : Option Value :=
  match f with
  | [] => none
  | (k', v) :: rest => if k' == k then some v else Frame.get? rest k

/-- `d[k] = v` for one frame: replace in place if present (dicts keep the
original insertion position), append otherwise. -/
def Frame.set (f : Frame) (k : String) (v : Value) : Frame :=
  match f with
  | [] => [(k, v)]
  | (k', v') :: rest =>
      if k' == k then (k', v) :: rest else (k', v') :: Frame.set rest k v

/-- `d1.update(d2)`: fold the entries of `d2` into `d1` in order, plain
overwrite semantics. -/
def Frame.update (f g : Frame) : Frame :=
  g.foldl (fun acc e => Frame.set acc e.1 e.2) f

/-- The heap of all frames ever allocated; a frame id is an index. -/
structure Heap where
  frames : List Frame

def Heap.size (h : Heap) : Nat := h.frames.length

def Heap.getF (h : Heap) (i : Nat) : Frame := h.frames.getD i []

def Heap.setF (h : Heap) (i : Nat) (f : Frame) : Heap :=
  ⟨h.frames.set i f⟩

/-- Allocate a fresh empty frame, returning its id. -/
def Heap.alloc (h : Heap) : Heap × Nat :=
  (⟨h.frames ++ [[]]⟩, h.frames.length)

/-! ## Context (`core.py` lines 17-48) -/

/-- A `Context` is a `ChainMap`: the ids of its frames, innermost first
(`ChainMap.maps`).  Always nonempty for contexts built through the API. -/
structure Ctx where
  maps : List Nat

/-- `Context()` : a chain of one fresh empty frame. -/
def Ctx.mk0 (h : Heap) : Heap × Ctx :=
  let (h', i) := h.alloc
  (h', ⟨[i]⟩)

/-- `new_child()` : push a fresh frame onto the chain. -/
def Ctx.newChild (h : Heap) (c : Ctx) : Heap × Ctx :=
  let (h', i) := h.alloc
  (h', ⟨i :: c.maps⟩)

/-- `key in chainmap` : membership anywhere in the chain. -/
def Ctx.containsKey (h : Heap) (c : Ctx) (k : String) : Bool :=
  c.maps.any (fun i => (h.getF i).hasKey k)

/-- `chainmap[key]` on a list of frame ids: first frame that has the key. -/
def lookupChain (h : Heap) (k : String) : List Nat → Option Value
  | [] => none
  | i :: rest =>
      match (h.getF i).get? k with
      | some v => some v
      | none => lookupChain h k rest

/-- `chainmap[key]` : first frame that has the key. -/
def Ctx.get? (h : Heap) (c : Ctx) (k : String) : Option Value :=
  lookupChain h k c.maps

/-- All keys currently visible in the chain (with multiplicity). -/
def Ctx.allKeys (h : Heap) (c : Ctx) : List String :=
  (c.maps.map (fun i => (h.getF i).map Prod.fst)).flatten

/-- The `while new_key in self` loop of `Context.__setitem__`: try `cur`,
then `base ++ " " ++ str(i)`, `base ++ " " ++ str(i+1)`, ….  The loop always
terminates because the chain holds finitely many keys; `fuel` is an upper
bound on the number of iterations, chosen large enough below. -/
def findFreeKey (h : Heap) (c : Ctx) (base : String) : Nat → Nat → String → String
  | 0, _, cur => cur
  | fuel + 1, i, cur =>
      if Ctx.containsKey h c cur then
        findFreeKey h c base fuel (i + 1) (base ++ " " ++ pyStr i)
      else cur

/-- The key actually chosen by `Context.__setitem__` for requested key `k`:
split on `" "`, parse a numeric tail, then search upward for an unused key. -/
def Ctx.renameKey (h : Heap) (c : Ctx) (k : String) : String :=
  let parts := pySplitSpace k
  let last := parts.getLastD ""
  if isNumericStr last then
    let base := joinSpace parts.dropLast
    let i := strToNat last
    findFreeKey h c base ((c.allKeys h).length + 2) (i + 1) (base ++ " " ++ pyStr i)
  else
    findFreeKey h c k ((c.allKeys h).length + 2) 1 k

/-- `Context.__setitem__`: store `v` in the innermost frame under the
collision-renamed key. -/
def Ctx.setItem (h : Heap) (c : Ctx) (k : String) (v : Value) : Heap :=
  let key := Ctx.renameKey h c k
  match c.maps with
  | [] => h
  | i :: _ => h.setF i ((h.getF i).set key v)

/-- `Context.update_ext`: `maps[1].update(maps[0]); maps[0].clear()`.
Raises `RuntimeError` when there is no parent frame. -/
def Ctx.updateExt (h : Heap) (c : Ctx) : Option Heap :=
  match c.maps with
  | [] => none
  | [_] => none
  | i0 :: i1 :: _ =>
      let h' := h.setF i1 ((h.getF i1).update (h.getF i0))
      some (h'.setF i0 [])

/-- `dict(chainmap)`: build a dict from the outermost frame inward, later
(inner) frames overriding — mirrors `ChainMap.__iter__`. -/
def Ctx.snapshot (h : Heap) (c : Ctx) : Frame :=
  c.maps.reverse.foldl (fun acc i => acc.update (h.getF i)) []

/-! ## Errors, sentinels, data source -/

/-- The error kinds the engine can raise.  `parseErr` stands for
`FBError`/`FBNoDataError` (the recoverable parse-failure kind); the others
are the fatal Python exceptions (`ValueError`, `TypeError`, `KeyError`,
`RuntimeError`, `IndexError`).  `fuelErr` is an artifact of the fueled
interpreter and represents no Python behaviour. -/
inductive Err where
  | parseErr
  | valueErr
  | typeErr
  | keyErr
  | runtimeErr
  | indexErr
  | fuelErr
deriving DecidableEq, Repr

/-- What a `Parser.read`/`read_and_translate` call can hand back:
the `Reverted` and `Success` sentinels, Python `None`, a `Context`
(as `Section.read` and `Repeat.read` return), or a plain value. -/
inductive RRes where
  | rev
  | succ
  | none_
  | ctx (c : Ctx)
  | val (v : Value)

/-- `AddrType` from `formatbreaker.datasource` (data only in this byte-mode
model; `BIT` address arithmetic is outside the claims). -/
inductive AddrType where
  | UNDEFINED
  | BYTE
  | BIT
  | PARENT
deriving DecidableEq, Repr

/-- Modelled from the spec: the cursor of `formatbreaker.datasource.DataManager`
(not in `src/`).  It owns the input, a current absolute position and the zero
point of the innermost open region; `address` is counted from that zero point
(§6: `current_address()`).  Byte-mode model. -/
structure Mgr where
  data : List Nat
  pos : Nat
  base : Nat

def Mgr.address (m : Mgr) : Nat := m.pos - m.base

/-- Modelled from the spec: `DataManager.read`/`read_bytes` consumes exactly
`n` units and raises the data-exhaustion parse error if fewer remain (§6). -/
def Mgr.readBytes (m : Mgr) (n : Nat) : Except Err (List Nat × Mgr) :=
  if m.pos + n ≤ m.data.length then
    .ok ((m.data.drop m.pos).take n, ⟨m.data, m.pos + n, m.base⟩)
  else .error .parseErr

/-- The full mutable engine state: the frame heap and the cursor. -/
structure St where
  heap : Heap
  mgr : Mgr

/-- Modelled from the spec: entering `DataManager.make_child` (§6): a
relative region re-zeroes the child's coordinates at the parent's current
address; an absolute one shares them.  Returns the state inside the region
and the saved `(base, pos)` used on exit. -/
def enterRegion (st : St) (relative : Bool) : St × Nat × Nat :=
  (⟨st.heap, ⟨st.mgr.data, st.mgr.pos, if relative then st.mgr.pos else st.mgr.base⟩⟩,
   st.mgr.base, st.mgr.pos)

/-- Region exit on the normal (commit) path: the cursor keeps its position,
the parent's zero point is restored. -/
def exitCommit (st : St) (savedBase : Nat) : St :=
  ⟨st.heap, ⟨st.mgr.data, st.mgr.pos, savedBase⟩⟩

/-- Modelled from the spec: region exit on the rollback path of a revertible
region — the parent's address is restored to its pre-entry value (§6). -/
def exitRevert (st : St) (savedBase savedPos : Nat) : St :=
  ⟨st.heap, ⟨st.mgr.data, savedPos, savedBase⟩⟩

/-- `get_from_contexts` (`core.py` lines 54-58): outward search through the
tuple of contexts, each itself searched through its chain; `none` stands for
the raised `KeyError`. -/
def getFromContexts (h : Heap) (cs : List Ctx) (k : String) : Option Value :=
  match cs with
  | [] => none
  | c :: rest =>
      if Ctx.containsKey h c k then Ctx.get? h c k else getFromContexts h rest k

/-! ## Parsers -/

/-- The per-instance attributes of `Parser` (`core.py` lines 76-122):
`__label`, `__address`, `__addr_type`, `_backup_label`. -/
structure PCfg where
  label : Option String
  address : Option Nat
  addrType : AddrType
  backupLabel : Option String

mutual
/-- The closed set of parser variants the claims range over: the leaf readers
of `basictypes.py` (`ByteParser`, `Bytes`, `FailureParser`), the containers
`Block` and `Section` with their `relative`/`optional` flags and ordered
children, and the modifiers `Translator`, `Repeat`, `Array`.  A translator
carries its user `translate_func`; `Option Value`-style Python returns are
covered because the function maps a raw result to a raw result (`RRes`,
which includes Python `None`). -/
inductive PKind where
  | byteP
  | bytesP (len : Sum Int String)
  | failP
  | block (relative : Bool) (optional : Bool) (elems : List Parser)
  | section (relative : Bool) (optional : Bool) (elems : List Parser)
  | translator (inner : Parser) (f : RRes → RRes)
  | repeatP (inner : Parser) (qty : Sum Int String)
  | arrayP (inner : Parser) (qty : Sum Int String)

inductive Parser where
  | mk (cfg : PCfg) (kind : PKind)
end

def Parser.cfg : Parser → PCfg
  | .mk c _ => c

def Parser.kind : Parser → PKind
  | .mk _ k => k

/-- Python truthiness of an optional string (`None` and `""` are falsy). -/
def optTruthy : Option String → Bool
  | none => false
  | some s => s ≠ ""

/-- The label `Parser._store` resolves (`core.py` lines 207-217): the
explicit label if truthy, else the backup label suffixed with `"_" + hex(addr)`
when an address is supplied; `none` stands for the `RuntimeError` on
unlabeled data. -/
def storeLabel (p : Parser) (addr : Option Nat) : Option String :=
  if optTruthy p.cfg.label then p.cfg.label
  else if optTruthy p.cfg.backupLabel then
    match addr with
    | some a => some (p.cfg.backupLabel.getD "" ++ "_" ++ pyHex a)
    | none => p.cfg.backupLabel
  else none

/-- `Parser._store` : store `v` under the resolved label with the usual
collision renaming. -/
def store (p : Parser) (c : Ctx) (v : Value) (addr : Option Nat) (st : St) :
    (Except Err Unit) × St :=
  match storeLabel p addr with
  | none => (.error .runtimeErr, st)
  | some l => (.ok (), ⟨Ctx.setItem st.heap c l v, st.mgr⟩)

/-- `_spacer` (`core.py` lines 369-392): read the gap from the cursor's
current address up to `stopAddr` and store it under the synthesized
`spacer_…` label; no entry when the gap is zero.  A negative gap is the
fatal address-order error the data source raises on `read` of a negative
length (spec §4.4, `IndexError` in the tests). -/
def spacer (st : St) (c : Ctx) (stopAddr : Nat) : (Except Err Unit) × St :=
  if stopAddr = st.mgr.address then (.ok (), st)
  else if stopAddr < st.mgr.address then (.error .indexErr, st)
  else
    match st.mgr.readBytes (stopAddr - st.mgr.address) with
    | .error e => (.error e, st)
    | .ok (bs, m') =>
        (.ok (), ⟨Ctx.setItem st.heap c
          (if 1 < stopAddr - st.mgr.address then
            "spacer_" ++ pyHex st.mgr.address ++ "-" ++ pyHex (stopAddr - 1)
          else "spacer_" ++ pyHex st.mgr.address) (Value.vBytes bs), m'⟩)

/-- `translate` dispatch: the identity for every variant except `Translator`,
which applies its user function (`core.py` lines 230-242 and 439-440). -/
def translateP (p : Parser) (r : RRes) : RRes :=
  match p.kind with
  | .translator _ f => f r
  | _ => r

mutual

/-- `read` dispatch over the parser variants.  Fuel only bounds recursion
depth; every recursive call decrements it and exhaustion yields the
artificial `fuelErr`. -/
def readP : Nat → Parser → List Ctx → St → (Except Err RRes) × St
  | 0, _, _, st => (.error .fuelErr, st)
  | fuel + 1, p, cs, st =>
    match p.kind with
    | .byteP =>
        match st.mgr.readBytes 1 with
        | .error e => (.error e, st)
        | .ok (bs, m') => (.ok (.val (.vBytes bs)), ⟨st.heap, m'⟩)
    | .bytesP len =>
        let lengthE : Except Err Int :=
          match len with
          | .inl n => .ok n
          | .inr key =>
              match getFromContexts st.heap cs key with
              | none => .error .keyErr
              | some (.vInt n) => .ok n
              | some _ => .error .typeErr
        match lengthE with
        | .error e => (.error e, st)
        | .ok n =>
            if n < 1 then (.error .valueErr, st)
            else
              match st.mgr.readBytes n.toNat with
              | .error e => (.error e, st)
              | .ok (bs, m') => (.ok (.val (.vBytes bs)), ⟨st.heap, m'⟩)
    | .failP => (.error .parseErr, st)
    | .block rel opt elems =>
        let (st1, savedBase, savedPos) := enterRegion st rel
        let (h2, fid) := st1.heap.alloc
        let outCtx : Ctx := ⟨[fid]⟩
        match readElems fuel elems (outCtx :: cs) ⟨h2, st1.mgr⟩ with
        | (.ok _, st2) =>
            (.ok (.val (.vDict (Ctx.snapshot st2.heap outCtx))), exitCommit st2 savedBase)
        | (.error e, st2) =>
            if opt ∧ e = .parseErr then (.ok .rev, exitRevert st2 savedBase savedPos)
            else (.error e, exitCommit st2 savedBase)
    | .section rel opt elems =>
        match cs with
        | [] => (.error .runtimeErr, st)
        | c :: rest =>
            let (st1, savedBase, savedPos) := enterRegion st rel
            let (h2, outCtx) := Ctx.newChild st1.heap c
            match readElems fuel elems (outCtx :: rest) ⟨h2, st1.mgr⟩ with
            | (.ok _, st2) => (.ok (.ctx outCtx), exitCommit st2 savedBase)
            | (.error e, st2) =>
                if opt ∧ e = .parseErr then (.ok .rev, exitRevert st2 savedBase savedPos)
                else (.error e, exitCommit st2 savedBase)
    | .translator inner _ => readAndTranslate fuel inner cs st
    | .repeatP inner qty =>
        match qty with
        | .inr key =>
            match getFromContexts st.heap cs key with
            | none => (.error .keyErr, st)
            | some _ => (.error .valueErr, st)
        | .inl n =>
            match cs with
            | [] => (.error .runtimeErr, st)
            | c :: _ =>
                let (h1, fid) := st.heap.alloc
                let results : Ctx := ⟨fid :: c.maps⟩
                match repeatLoop fuel p inner n.toNat cs results ⟨h1, st.mgr⟩ with
                | (.ok _, st') => (.ok (.ctx results), st')
                | (.error e, st') => (.error e, st')
    | .arrayP inner qty =>
        match qty with
        | .inr key =>
            match getFromContexts st.heap cs key with
            | none => (.error .keyErr, st)
            | some _ => (.error .valueErr, st)
        | .inl n =>
            match arrayLoop fuel inner n.toNat cs st with
            | (.ok items, st') => (.ok (.val (.vList items)), st')
            | (.error e, st') => (.error e, st')

/-- `Parser.read_and_translate` (`core.py` lines 160-169). -/
def readAndTranslate : Nat → Parser → List Ctx → St → (Except Err RRes) × St
  | 0, _, _, st => (.error .fuelErr, st)
  | fuel + 1, p, cs, st =>
      match readP fuel p cs st with
      | (.error e, st') => (.error e, st')
      | (.ok .rev, st') => (.ok .rev, st')
      | (.ok r, st') => (.ok (translateP p r), st')

/-- `Parser.goto_addr_and_read` (`core.py` lines 136-158): spacer to the
pinned address, read, then dispose of the result — promote a returned
context, reject `None`, store a value, pass sentinels through. -/
def gotoRead : Nat → Parser → List Ctx → St → (Except Err RRes) × St
  | 0, _, _, st => (.error .fuelErr, st)
  | fuel + 1, p, cs, st =>
      match cs with
      | [] => (.error .runtimeErr, st)
      | c :: _ =>
          let spacerOut : (Except Err Unit) × St :=
            match p.cfg.address with
            | some a => spacer st c a
            | none => (.ok (), st)
          match spacerOut with
          | (.error e, st') => (.error e, st')
          | (.ok _, st1) =>
              let addr := st1.mgr.address
              match readAndTranslate fuel p cs st1 with
              | (.error e, st2) => (.error e, st2)
              | (.ok .rev, st2) => (.ok .rev, st2)
              | (.ok (.ctx cc), st2) =>
                  match Ctx.updateExt st2.heap cc with
                  | none => (.error .runtimeErr, st2)
                  | some h' => (.ok .succ, ⟨h', st2.mgr⟩)
              | (.ok .none_, st2) => (.error .valueErr, st2)
              | (.ok .succ, st2) => (.ok .succ, st2)
              | (.ok (.val v), st2) =>
                  match store p c v (some addr) st2 with
                  | (.error e, st3) => (.error e, st3)
                  | (.ok _, st3) => (.ok .succ, st3)

/-- The element loop shared by `Block.read` and `Section.read`: run
`goto_addr_and_read` on each child in order, dropping its sentinel result. -/
def readElems : Nat → List Parser → List Ctx → St → (Except Err Unit) × St
  | 0, _, _, st => (.error .fuelErr, st)
  | _ + 1, [], _, st => (.ok (), st)
  | fuel + 1, e :: rest, cs, st =>
      match gotoRead fuel e cs st with
      | (.error err, st') => (.error err, st')
      | (.ok _, st') => readElems fuel rest cs st'

/-- The iteration loop of `Repeat.read` (`core.py` lines 475-491): each
iteration opens a non-revertible relative region, reads, merges a returned
context outward, stores a non-`None` result, then promotes the iteration
frame into the accumulating `results` chain. -/
def repeatLoop : Nat → Parser → Parser → Nat → List Ctx → Ctx → St →
    (Except Err Unit) × St
  | 0, _, _, _, _, _, st => (.error .fuelErr, st)
  | _ + 1, _, _, 0, _, _, st => (.ok (), st)
  | fuel + 1, p, inner, reps + 1, cs, results, st =>
      let (st1, savedBase, _) := enterRegion st true
      let addr := st1.mgr.address
      let (h2, gid) := st1.heap.alloc
      let outC : Ctx := ⟨gid :: results.maps⟩
      match readAndTranslate fuel inner cs ⟨h2, st1.mgr⟩ with
      | (.error e, st2) => (.error e, exitCommit st2 savedBase)
      | (.ok .rev, st2) =>
          repeatLoop fuel p inner reps cs results (exitCommit st2 savedBase)
      | (.ok r, st2) =>
          let merged : (Except Err Unit) × St :=
            match r with
            | .ctx cc =>
                match Ctx.updateExt st2.heap cc with
                | none => (.error .runtimeErr, st2)
                | some h3 => (.ok (), ⟨h3, st2.mgr⟩)
            | .none_ => (.ok (), st2)
            | .rev => (.ok (), st2)
            | .succ => store p outC .vSuccess (some addr) st2
            | .val v => store p outC v (some addr) st2
          match merged with
          | (.error e, st3) => (.error e, exitCommit st3 savedBase)
          | (.ok _, st3) =>
              match Ctx.updateExt st3.heap outC with
              | none => (.error .runtimeErr, exitCommit st3 savedBase)
              | some h4 =>
                  repeatLoop fuel p inner reps cs results
                    (exitCommit ⟨h4, st3.mgr⟩ savedBase)

/-- The iteration loop of `Array.read` (`core.py` lines 525-541): each
iteration opens a non-revertible relative region with a fresh context,
appends `[]` for a reverted slot, the dict snapshot for a returned context,
and the raw result when it is not `None`; a `None` result appends nothing. -/
def arrayLoop : Nat → Parser → Nat → List Ctx → St → (Except Err (List Value)) × St
  | 0, _, _, _, st => (.error .fuelErr, st)
  | _ + 1, _, 0, _, st => (.ok [], st)
  | fuel + 1, inner, reps + 1, cs, st =>
      let (st1, savedBase, _) := enterRegion st true
      let (h2, fid) := st1.heap.alloc
      let outC : Ctx := ⟨[fid]⟩
      match readAndTranslate fuel inner (outC :: cs.tail) ⟨h2, st1.mgr⟩ with
      | (.error e, st2) => (.error e, exitCommit st2 savedBase)
      | (.ok r, st2) =>
          let slot : List Value :=
            match r with
            | .rev => [.vList []]
            | .ctx cc => [.vDict (Ctx.snapshot st2.heap cc)]
            | .none_ => []
            | .succ => [.vSuccess]
            | .val v => [v]
          match arrayLoop fuel inner reps cs (exitCommit st2 savedBase) with
          | (.ok restItems, st4) => (.ok (slot ++ restItems), st4)
          | (.error e, st4) => (.error e, st4)

end

/-- `Parser.parse` (`core.py` lines 171-184): a fresh root context and root
region, one `goto_addr_and_read`, then the snapshot of the root context. -/
def parseTop (fuel : Nat) (p : Parser) (input : List Nat) : Except Err Frame :=
  let st0 : St := ⟨⟨[[]]⟩, ⟨input, 0, 0⟩⟩
  let root : Ctx := ⟨[0]⟩
  match gotoRead fuel p [root] st0 with
  | (.error e, _) => .error e
  | (.ok _, st') => .ok (Ctx.snapshot st'.heap root)

/-! ## Constructors (mirroring the Python `__init__` methods) -/

/-- Modelled from the spec: `formatbreaker.util.validate_address_or_length`
(not in `src/`): addresses and lengths must be non-negative integers meeting
the declared minimum, violations raise immediately (§4.1, `IndexError` in
the tests); string keys — the permitted dynamic references — pass through to
read time (§4.5). -/
def validateAddrLen (v : Sum Int String) (lo : Int) : Except Err Unit :=
  match v with
  | .inl n => if n < lo then .error .indexErr else .ok ()
  | .inr _ => .ok ()

def defaultCfg (backup : Option String) (at_ : AddrType) : PCfg :=
  ⟨none, none, at_, backup⟩

/-- `Byte = ByteParser()` of `basictypes.py`. -/
def mkByte : Parser := ⟨defaultCfg (some "Byte") .BYTE, .byteP⟩

/-- `Bytes(byte_length)` of `basictypes.py`: a literal length is validated
against minimum 1 at construction. -/
def mkBytes (len : Sum Int String) : Except Err Parser :=
  match validateAddrLen len 1 with
  | .error e => .error e
  | .ok _ => .ok ⟨defaultCfg (some "Bytes") .UNDEFINED, .bytesP len⟩

/-- `Failure = FailureParser()` of `basictypes.py`. -/
def mkFailure : Parser := ⟨defaultCfg none .UNDEFINED, .failP⟩

/-- `Block(*elements, relative=…, addr_type=…, optional=…)`. -/
def mkBlock (elems : List Parser) (relative : Bool) (addrType : AddrType)
    (optional : Bool) : Parser :=
  ⟨⟨none, none, addrType, some "Block"⟩, .block relative optional elems⟩

/-- `Section(*elements, …)` (backup label `"Section"`). -/
def mkSection (elems : List Parser) (relative : Bool) (addrType : AddrType)
    (optional : Bool) : Parser :=
  ⟨⟨none, none, addrType, some "Section"⟩, .section relative optional elems⟩

/-- `Optional(*args)` : `Section(*args, optional=True)`. -/
def mkOptional (elems : List Parser) (relative : Bool) (addrType : AddrType) : Parser :=
  mkSection elems relative addrType true

/-- `Modifier.__init__` (`core.py` lines 399-410): the backup label argument
or the wrapped parser's; the wrapped parser's addressing mode; label and
address copied only when truthy — so an address pinned at `0` is dropped. -/
def modifierCfg (p : Parser) (backupLabel : Option String) : PCfg :=
  { label := if optTruthy p.cfg.label then p.cfg.label else none
    address :=
      match p.cfg.address with
      | some a => if a ≠ 0 then some a else none
      | none => none
    addrType := p.cfg.addrType
    backupLabel := if optTruthy backupLabel then backupLabel else p.cfg.backupLabel }

/-- `Translator(parser, translate_func, backup_label)`. -/
def mkTranslator (p : Parser) (f : RRes → RRes) (backupLabel : Option String) : Parser :=
  ⟨modifierCfg p backupLabel, .translator p f⟩

/-- `Repeat(parser, repeat_qty)`: validated against minimum 1. -/
def mkRepeat (p : Parser) (qty : Sum Int String) : Except Err Parser :=
  match validateAddrLen qty 1 with
  | .error e => .error e
  | .ok _ => .ok ⟨modifierCfg p none, .repeatP p qty⟩

/-- `Array(parser, repeat_qty)`: validated against minimum 0. -/
def mkArray (p : Parser) (qty : Sum Int String) : Except Err Parser :=
  match validateAddrLen qty 0 with
  | .error e => .error e
  | .ok _ => .ok ⟨modifierCfg p none, .arrayP p qty⟩

/-- The `@` operator (`__matmul__`): a copy with the target address bound,
validated non-negative by the `_address` setter. -/
def atAddr (p : Parser) (a : Int) : Except Err Parser :=
  if a < 0 then .error .indexErr
  else .ok ⟨⟨p.cfg.label, some a.toNat, p.cfg.addrType, p.cfg.backupLabel⟩, p.kind⟩

/-- The `>>` operator (`__rshift__`): a copy with the label bound. -/
def withLabel (p : Parser) (l : String) : Parser :=
  ⟨⟨some l, p.cfg.address, p.cfg.addrType, p.cfg.backupLabel⟩, p.kind⟩

/-! ## Helper lemmas: decimal rendering is injective -/

/-- Value of a little-endian digit list. -/
def decValue : List Nat → Nat
  | [] => 0
  | d :: ds => d + 10 * decValue ds

theorem decValue_decDigitsRevAux :
    ∀ (fuel n : Nat), n ≤ fuel → decValue (decDigitsRevAux fuel n) = n := by
  intro fuel
  induction fuel with
  | zero =>
      intro n hn
      have : n = 0 := by omega
      simp [this, decDigitsRevAux, decValue]
  | succ fuel ih =>
      intro n hn
      rw [decDigitsRevAux]
      by_cases h : n = 0
      · simp [h, decValue]
      · rw [if_neg h, decValue,
          ih (n / 10) (by
            have := Nat.div_lt_self (Nat.pos_of_ne_zero h) (by omega : (1 : Nat) < 10)
            omega)]
        omega

theorem decValue_decDigitsRev (n : Nat) : decValue (decDigitsRev n) = n :=
  decValue_decDigitsRevAux n n (le_refl n)

theorem decDigitsRev_injective : Function.Injective decDigitsRev := by
  intro a b hab
  have := decValue_decDigitsRev a
  rw [hab, decValue_decDigitsRev] at this
  omega

theorem decDigitsRevAux_lt : ∀ (fuel n : Nat), ∀ d ∈ decDigitsRevAux fuel n, d < 10 := by
  intro fuel
  induction fuel with
  | zero => intro n d hd; simp [decDigitsRevAux] at hd
  | succ fuel ih =>
      intro n d
      rw [decDigitsRevAux]
      by_cases h : n = 0
      · simp [h]
      · rw [if_neg h]
        intro hd
        rcases List.mem_cons.mp hd with rfl | hd'
        · omega
        · exact ih (n / 10) d hd'

theorem decDigitsRev_lt (n : Nat) : ∀ d ∈ decDigitsRev n, d < 10 :=
  decDigitsRevAux_lt n n

theorem decDigitChar_inj {a b : Nat} (ha : a < 10) (hb : b < 10)
    (h : decDigitChar a = decDigitChar b) : a = b := by
  interval_cases a <;> interval_cases b <;> simp_all [decDigitChar]

theorem map_decDigitChar_inj : ∀ {l₁ l₂ : List Nat}, (∀ d ∈ l₁, d < 10) →
    (∀ d ∈ l₂, d < 10) → l₁.map decDigitChar = l₂.map decDigitChar → l₁ = l₂ := by
  intro l₁
  induction l₁ with
  | nil => intro l₂ _ _ h; cases l₂ <;> simp_all
  | cons a t ih =>
    intro l₂ h₁ h₂ h
    cases l₂ with
    | nil => simp_all
    | cons b t₂ =>
      simp only [List.map_cons, List.cons.injEq] at h
      have hab := decDigitChar_inj (h₁ a (by simp)) (h₂ b (by simp)) h.1
      have := ih (fun d hd => h₁ d (by simp [hd])) (fun d hd => h₂ d (by simp [hd])) h.2
      simp [hab, this]

theorem string_mk_data (l : List Char) : (String.mk l).data = l := rfl

theorem decDigitChar_toNat {d : Nat} (hd : d < 10) : (decDigitChar d).toNat = 48 + d := by
  interval_cases d <;> decide

/-- Left inverse of `pyStr`: parse the decimal string back. -/
def strVal (s : String) : Nat :=
  decValue ((s.data.map (fun c => c.toNat - 48)).reverse)

theorem strVal_pyStr (n : Nat) : strVal (pyStr n) = n := by
  unfold pyStr strVal
  by_cases h : n = 0
  · simp [h, decValue]
  · simp only [h, ite_false, string_mk_data, List.map_map, List.map_reverse,
      List.reverse_reverse]
    have hmap : ∀ l : List Nat, (∀ d ∈ l, d < 10) →
        l.map ((fun c => c.toNat - 48) ∘ decDigitChar) = l := by
      intro l
      induction l with
      | nil => intro _; rfl
      | cons d t ih =>
          intro hl
          have hd := hl d (by simp)
          simp only [List.map_cons, Function.comp, decDigitChar_toNat hd,
            Nat.add_sub_cancel_left, List.cons.injEq, true_and]
          exact ih (fun x hx => hl x (by simp [hx]))
    rw [hmap _ (decDigitsRev_lt n), decValue_decDigitsRev]

theorem pyStr_injective : Function.Injective pyStr := by
  intro a b hab
  have := strVal_pyStr a
  rw [hab, strVal_pyStr] at this
  omega

theorem string_append_data (a b : String) : (a ++ b).data = a.data ++ b.data := rfl

theorem string_data_inj {a b : String} (h : a.data = b.data) : a = b := by
  cases a
  cases b
  exact congrArg String.mk h

theorem string_append_left_cancel {s a b : String} (h : s ++ a = s ++ b) : a = b := by
  have : (s ++ a).data = (s ++ b).data := by rw [h]
  simp only [string_append_data] at this
  exact string_data_inj (List.append_cancel_left this)

/-- The candidate keys `base ++ " " ++ str(j)` tried by the rename loop. -/
def candKey (base : String) (j : Nat) : String := base ++ " " ++ pyStr j

theorem candKey_injective (base : String) : Function.Injective (candKey base) := by
  intro a b hab
  exact pyStr_injective (string_append_left_cancel hab)

/-! ## Helper lemmas: the collision-renaming loop -/

theorem Frame.hasKey_iff {f : Frame} {k : String} :
    f.hasKey k = true ↔ k ∈ f.map Prod.fst := by
  simp [Frame.hasKey, List.any_eq_true, List.mem_map, beq_iff_eq]

theorem containsKey_iff_mem_allKeys {h : Heap} {c : Ctx} {k : String} :
    Ctx.containsKey h c k = true ↔ k ∈ Ctx.allKeys h c := by
  simp only [Ctx.containsKey, Ctx.allKeys, List.any_eq_true, List.mem_flatten,
    List.mem_map]
  constructor
  · rintro ⟨i, hi, hk⟩
    rw [Frame.hasKey_iff] at hk
    exact ⟨(h.getF i).map Prod.fst, ⟨i, hi, rfl⟩, hk⟩
  · rintro ⟨l, ⟨i, hi, rfl⟩, hk⟩
    exact ⟨i, hi, Frame.hasKey_iff.mpr hk⟩

theorem not_contains_of_not_mem {h : Heap} {c : Ctx} {k : String}
    (hk : k ∉ Ctx.allKeys h c) : Ctx.containsKey h c k = false := by
  rcases hc : Ctx.containsKey h c k with _ | _
  · rfl
  · exact absurd (containsKey_iff_mem_allKeys.mp hc) hk

/-- Pigeonhole: among `keys.length + 1` distinct candidate keys one is unused. -/
theorem exists_free_candKey (keys : List String) (base : String) (i₀ : Nat) :
    ∃ j, i₀ ≤ j ∧ j ≤ i₀ + keys.length ∧ candKey base j ∉ keys := by
  by_contra hcon
  push_neg at hcon
  have hsub : (Finset.Icc i₀ (i₀ + keys.length)).image (candKey base) ⊆ keys.toFinset := by
    intro s hs
    simp only [Finset.mem_image, Finset.mem_Icc] at hs
    obtain ⟨j, ⟨h1, h2⟩, rfl⟩ := hs
    exact List.mem_toFinset.mpr (hcon j h1 h2)
  have hcard : ((Finset.Icc i₀ (i₀ + keys.length)).image (candKey base)).card
      = keys.length + 1 := by
    rw [Finset.card_image_of_injective _ (candKey_injective base), Nat.card_Icc]
    omega
  have h1 := Finset.card_le_card hsub
  have h2 := List.toFinset_card_le keys
  omega

theorem findFreeKey_zero (h : Heap) (c : Ctx) (base : String) (i : Nat) (cur : String) :
    findFreeKey h c base 0 i cur = cur := rfl

theorem findFreeKey_succ (h : Heap) (c : Ctx) (base : String) (fuel i : Nat) (cur : String) :
    findFreeKey h c base (fuel + 1) i cur =
      if Ctx.containsKey h c cur = true then
        findFreeKey h c base fuel (i + 1) (candKey base i)
      else cur := rfl

/-- When started on candidate `m` (with counter `m + 1`), the loop returns
the least unused candidate `≥ m`, provided one is within the fuel budget. -/
theorem findFreeKey_least (h : Heap) (c : Ctx) (base : String) :
    ∀ fuel m,
    (∃ jf, m ≤ jf ∧ jf + 1 < m + 1 + fuel ∧
      Ctx.containsKey h c (candKey base jf) = false) →
    ∃ j, findFreeKey h c base fuel (m + 1) (candKey base m) = candKey base j ∧
      Ctx.containsKey h c (candKey base j) = false ∧ m ≤ j ∧
      ∀ j', m ≤ j' → j' < j → Ctx.containsKey h c (candKey base j') = true := by
  intro fuel
  induction fuel with
  | zero =>
      rintro m ⟨jf, h1, h2, _⟩
      omega
  | succ fuel ih =>
      rintro m ⟨jf, h1, h2, hjf⟩
      rw [findFreeKey_succ]
      by_cases hm : Ctx.containsKey h c (candKey base m) = true
      · rw [if_pos hm]
        have hne : jf ≠ m := by
          intro e
          rw [e] at hjf
          rw [hjf] at hm
          cases hm
        obtain ⟨j, hj1, hj2, hj3, hj4⟩ := ih (m + 1) ⟨jf, by omega, by omega, hjf⟩
        rw [show m + 1 + 1 = (m + 1) + 1 from rfl, hj1]
        refine ⟨j, rfl, hj2, by omega, fun j' hj' hlt => ?_⟩
        rcases Nat.lt_or_ge j' (m + 1) with hlt' | hge
        · have he : j' = m := by omega
          rw [he]
          exact hm
        · exact hj4 j' hge hlt
      · rw [if_neg hm]
        simp only [Bool.not_eq_true] at hm
        exact ⟨m, rfl, hm, le_refl m, fun j' hj1 hj2 => by omega⟩

/-- `renameKey` on a colliding key unfolds to the suffix-search loop. -/
theorem renameKey_collide_eq (h : Heap) (c : Ctx) (k : String)
    (hnum : isNumericStr ((pySplitSpace k).getLastD "") = false)
    (hk : Ctx.containsKey h c k = true) :
    Ctx.renameKey h c k =
      findFreeKey h c k ((Ctx.allKeys h c).length + 1) (1 + 1) (candKey k 1) := by
  unfold Ctx.renameKey
  simp only [hnum, Bool.false_eq_true, if_false]
  rw [findFreeKey_succ, if_pos hk]

/-- A free candidate always exists within the loop's fuel budget. -/
theorem exists_free_within (h : Heap) (c : Ctx) (base : String) (i₀ fuel : Nat)
    (hfuel : (Ctx.allKeys h c).length + 1 ≤ fuel) :
    ∃ jf, i₀ ≤ jf ∧ jf + 1 < i₀ + 1 + fuel ∧
      Ctx.containsKey h c (candKey base jf) = false := by
  obtain ⟨jf, hf1, hf2, hf3⟩ := exists_free_candKey (Ctx.allKeys h c) base i₀
  exact ⟨jf, hf1, by omega, not_contains_of_not_mem hf3⟩

/-- The smallest-unused-suffix property for a colliding non-numeric key. -/
theorem renameKey_least (h : Heap) (c : Ctx) (k : String)
    (hnum : isNumericStr ((pySplitSpace k).getLastD "") = false)
    (hk : Ctx.containsKey h c k = true) :
    ∃ j, Ctx.renameKey h c k = candKey k j ∧
      Ctx.containsKey h c (candKey k j) = false ∧ 1 ≤ j ∧
      ∀ j', 1 ≤ j' → j' < j → Ctx.containsKey h c (candKey k j') = true := by
  rw [renameKey_collide_eq h c k hnum hk]
  exact findFreeKey_least h c k ((Ctx.allKeys h c).length + 1) 1
    (exists_free_within h c k 1 ((Ctx.allKeys h c).length + 1) (le_refl _))

/-- A non-colliding key with a non-numeric tail is kept unchanged. -/
theorem renameKey_of_not_contains (h : Heap) (c : Ctx) (k : String)
    (hnum : isNumericStr ((pySplitSpace k).getLastD "") = false)
    (hk : Ctx.containsKey h c k = false) :
    Ctx.renameKey h c k = k := by
  unfold Ctx.renameKey
  simp only [hnum, Bool.false_eq_true, if_false]
  rw [findFreeKey_succ, hk, if_neg (by simp)]

/-- The numeric-tail branch of `renameKey` is also a loop run on candidates. -/
theorem renameKey_numeric_eq (h : Heap) (c : Ctx) (k : String)
    (hnum : isNumericStr ((pySplitSpace k).getLastD "") = true) :
    Ctx.renameKey h c k =
      findFreeKey h c (joinSpace (pySplitSpace k).dropLast)
        ((Ctx.allKeys h c).length + 2)
        (strToNat ((pySplitSpace k).getLastD "") + 1)
        (candKey (joinSpace (pySplitSpace k).dropLast)
          (strToNat ((pySplitSpace k).getLastD ""))) := by
  unfold Ctx.renameKey
  simp only [hnum, if_true]
  rfl

/-- The key chosen by `Context.__setitem__` is never one already visible in
the chain. -/
theorem renameKey_not_contains (h : Heap) (c : Ctx) (k : String) :
    Ctx.containsKey h c (Ctx.renameKey h c k) = false := by
  by_cases hnum : isNumericStr ((pySplitSpace k).getLastD "") = true
  · rw [renameKey_numeric_eq h c k hnum]
    obtain ⟨j, hj1, hj2, _, _⟩ := findFreeKey_least h c
      (joinSpace (pySplitSpace k).dropLast) ((Ctx.allKeys h c).length + 2)
      (strToNat ((pySplitSpace k).getLastD ""))
      (exists_free_within h c _ _ _ (by omega))
    rw [hj1]
    exact hj2
  · simp only [Bool.not_eq_true] at hnum
    by_cases hk : Ctx.containsKey h c k = true
    · obtain ⟨j, hj1, hj2, _, _⟩ := renameKey_least h c k hnum hk
      rw [hj1]
      exact hj2
    · simp only [Bool.not_eq_true] at hk
      rw [renameKey_of_not_contains h c k hnum hk]
      exact hk

/-- When the requested key collides, the chosen key is a suffixed candidate. -/
theorem renameKey_of_contains (h : Heap) (c : Ctx) (k : String)
    (hk : Ctx.containsKey h c k = true) :
    ∃ base j, Ctx.renameKey h c k = candKey base j := by
  by_cases hnum : isNumericStr ((pySplitSpace k).getLastD "") = true
  · rw [renameKey_numeric_eq h c k hnum]
    obtain ⟨j, hj1, _, _, _⟩ := findFreeKey_least h c
      (joinSpace (pySplitSpace k).dropLast) ((Ctx.allKeys h c).length + 2)
      (strToNat ((pySplitSpace k).getLastD ""))
      (exists_free_within h c _ _ _ (by omega))
    exact ⟨_, j, hj1⟩
  · simp only [Bool.not_eq_true] at hnum
    obtain ⟨j, hj1, _, _, _⟩ := renameKey_least h c k hnum hk
    exact ⟨k, j, hj1⟩

/-! ## Helper lemmas: heap and frame effects -/

theorem Heap.length_setF (h : Heap) (i : Nat) (f : Frame) :
    (h.setF i f).frames.length = h.frames.length := by
  simp [Heap.setF]

theorem Heap.getF_setF_self (h : Heap) (i : Nat) (f : Frame)
    (hi : i < h.frames.length) : (h.setF i f).getF i = f := by
  simp [Heap.setF, Heap.getF, List.getD_eq_getElem?_getD, List.getElem?_set_self', hi]

theorem Heap.getF_setF_ne (h : Heap) (i j : Nat) (f : Frame) (hne : j ≠ i) :
    (h.setF i f).getF j = h.getF j := by
  simp [Heap.setF, Heap.getF, List.getD_eq_getElem?_getD,
    List.getElem?_set_ne (by omega : i ≠ j)]

theorem Heap.length_alloc (h : Heap) :
    (h.alloc.1).frames.length = h.frames.length + 1 := by
  simp [Heap.alloc]

theorem Heap.getF_alloc_old (h : Heap) (j : Nat) (hj : j < h.frames.length) :
    (h.alloc.1).getF j = h.getF j := by
  simp [Heap.alloc, Heap.getF, List.getD_eq_getElem?_getD, List.getElem?_append, hj]

theorem Heap.getF_alloc_new (h : Heap) : (h.alloc.1).getF h.frames.length = [] := by
  simp [Heap.alloc, Heap.getF, List.getD_eq_getElem?_getD]

theorem Heap.getF_of_ge (h : Heap) (j : Nat) (hj : h.frames.length ≤ j) :
    h.getF j = [] := by
  simp [Heap.getF, List.getD_eq_getElem?_getD, List.getElem?_eq_none hj]

theorem not_contains_frames {h : Heap} {c : Ctx} {k : String}
    (hc : Ctx.containsKey h c k = false) :
    ∀ i ∈ c.maps, (h.getF i).hasKey k = false := by
  intro i hi
  rcases hk : (h.getF i).hasKey k with _ | _
  · rfl
  · exfalso
    have hcc : Ctx.containsKey h c k = true := by
      simp only [Ctx.containsKey, List.any_eq_true]
      exact ⟨i, hi, hk⟩
    rw [hcc] at hc
    cases hc

theorem Frame.set_of_not_hasKey (f : Frame) (k : String) (v : Value)
    (h : f.hasKey k = false) : f.set k v = f ++ [(k, v)] := by
  induction f with
  | nil => rfl
  | cons e t ih =>
      simp only [Frame.hasKey, List.any_cons, Bool.or_eq_false_iff] at h
      rw [Frame.set, if_neg (by simpa using h.1)]
      rw [ih (by simpa [Frame.hasKey] using h.2)]
      simp

/-- `setItem` leaves the heap size unchanged. -/
theorem setItem_length (h : Heap) (c : Ctx) (k : String) (v : Value) :
    (Ctx.setItem h c k v).frames.length = h.frames.length := by
  unfold Ctx.setItem
  rcases c.maps with _ | ⟨i, rest⟩
  · rfl
  · simp [Heap.length_setF]

/-- `setItem` never touches frames other than the innermost one. -/
theorem setItem_getF_ne (h : Heap) (c : Ctx) (k : String) (v : Value) (j : Nat)
    (hj : ∀ i0 rest, c.maps = i0 :: rest → j ≠ i0) :
    (Ctx.setItem h c k v).getF j = h.getF j := by
  unfold Ctx.setItem
  rcases hm : c.maps with _ | ⟨i, rest⟩
  · rfl
  · exact Heap.getF_setF_ne h i j _ (hj i rest hm)

/-- The effect of `setItem` on the innermost frame: the renamed key is
appended. -/
theorem setItem_getF_head (h : Heap) (c : Ctx) (k : String) (v : Value)
    (i0 : Nat) (rest : List Nat) (hm : c.maps = i0 :: rest)
    (hi : i0 < h.frames.length) :
    (Ctx.setItem h c k v).getF i0 = h.getF i0 ++ [(Ctx.renameKey h c k, v)] := by
  unfold Ctx.setItem
  rw [hm]
  rw [Heap.getF_setF_self h i0 _ hi]
  apply Frame.set_of_not_hasKey
  have hfree := renameKey_not_contains h c k
  have := not_contains_frames hfree i0 (by rw [hm]; simp)
  exact this

theorem allKeys_cons (h : Heap) (i : Nat) (rest : List Nat) :
    Ctx.allKeys h ⟨i :: rest⟩ = (h.getF i).map Prod.fst ++ Ctx.allKeys h ⟨rest⟩ := by
  simp [Ctx.allKeys]

theorem allKeys_congr {h h' : Heap} {maps : List Nat}
    (heq : ∀ i ∈ maps, h'.getF i = h.getF i) :
    Ctx.allKeys h' ⟨maps⟩ = Ctx.allKeys h ⟨maps⟩ := by
  unfold Ctx.allKeys
  congr 1
  exact List.map_congr_left (fun i hi => by rw [heq i hi])

/-- Every write preserves global key distinctness over the whole chain. -/
theorem setItem_allKeys_nodup (h : Heap) (k : String) (v : Value)
    (i0 : Nat) (rest : List Nat)
    (hi : i0 < h.frames.length) (hnr : i0 ∉ rest)
    (hnd : (Ctx.allKeys h ⟨i0 :: rest⟩).Nodup) :
    (Ctx.allKeys (Ctx.setItem h ⟨i0 :: rest⟩ k v) ⟨i0 :: rest⟩).Nodup := by
  have hfree := renameKey_not_contains h ⟨i0 :: rest⟩ k
  have hrest : Ctx.allKeys (Ctx.setItem h ⟨i0 :: rest⟩ k v) ⟨rest⟩
      = Ctx.allKeys h ⟨rest⟩ :=
    allKeys_congr (fun i hi' => setItem_getF_ne h ⟨i0 :: rest⟩ k v i
      (fun a b hab => by
        have hab' : i0 :: rest = a :: b := hab
        have ha : i0 = a := by
          injection hab'
        subst ha
        intro he
        exact hnr (he ▸ hi')))
  have hkeys : Ctx.allKeys (Ctx.setItem h ⟨i0 :: rest⟩ k v) ⟨i0 :: rest⟩
      = (h.getF i0).map Prod.fst
        ++ Ctx.renameKey h ⟨i0 :: rest⟩ k :: Ctx.allKeys h ⟨rest⟩ := by
    rw [allKeys_cons, setItem_getF_head h ⟨i0 :: rest⟩ k v i0 rest rfl hi, hrest]
    simp
  rw [hkeys, List.nodup_middle, List.nodup_cons]
  constructor
  · intro hmem
    have : Ctx.renameKey h ⟨i0 :: rest⟩ k ∈ Ctx.allKeys h ⟨i0 :: rest⟩ := by
      rw [allKeys_cons]
      exact hmem
    rw [containsKey_iff_mem_allKeys.mpr this] at hfree
    cases hfree
  · rw [allKeys_cons] at hnd
    exact hnd

/-! ## Helper lemmas: `dict.update` semantics of `Frame.update` -/

theorem Frame.get?_set_self (f : Frame) (k : String) (v : Value) :
    (f.set k v).get? k = some v := by
  induction f with
  | nil => simp [Frame.set, Frame.get?]
  | cons e t ih =>
      rw [Frame.set]
      by_cases he : e.1 = k
      · simp [he, Frame.get?]
      · rw [if_neg (by simpa using he), Frame.get?, if_neg (by simpa using he)]
        exact ih

theorem Frame.get?_set_ne (f : Frame) (k' k : String) (v : Value) (hne : k' ≠ k) :
    (f.set k' v).get? k = f.get? k := by
  induction f with
  | nil => simp [Frame.set, Frame.get?, hne]
  | cons e t ih =>
      rw [Frame.set]
      by_cases he : e.1 = k'
      · rw [if_pos (by simpa using he), Frame.get?, Frame.get?]
        simp only [he]
        rw [if_neg (by simpa using hne), if_neg (by simpa using hne)]
      · rw [if_neg (by simpa using he), Frame.get?, Frame.get?]
        by_cases hek : e.1 = k
        · simp [hek]
        · rw [if_neg (by simpa using hek), if_neg (by simpa using hek)]
          exact ih

theorem Frame.hasKey_set (f : Frame) (k' k : String) (v : Value) :
    (f.set k' v).hasKey k = (f.hasKey k || (k' == k)) := by
  induction f with
  | nil => simp [Frame.set, Frame.hasKey]
  | cons e t ih =>
      rw [Frame.set]
      by_cases he : e.1 = k'
      · rw [if_pos (by simpa using he)]
        simp only [Frame.hasKey, List.any_cons, he]
        cases hkk : (k' == k) <;>
          cases ht : List.any t (fun e => e.1 == k) <;> simp [hkk, ht]
      · rw [if_neg (by simpa using he)]
        simp only [Frame.hasKey, List.any_cons] at ih ⊢
        rw [ih]
        cases hek : (e.1 == k) <;> simp [hek, Bool.or_assoc]

theorem Frame.hasKey_append (f g : Frame) (k : String) :
    (f ++ g).hasKey k = (f.hasKey k || g.hasKey k) := by
  simp [Frame.hasKey, List.any_append]

theorem Frame.update_nil (f : Frame) : f.update [] = f := rfl

theorem Frame.update_cons (f : Frame) (k : String) (v : Value) (g : Frame) :
    f.update ((k, v) :: g) = (f.set k v).update g := rfl

theorem Frame.get?_update_of_not_hasKey (f g : Frame) (k : String)
    (hg : g.hasKey k = false) : (f.update g).get? k = f.get? k := by
  induction g generalizing f with
  | nil => rfl
  | cons e t ih =>
      rcases e with ⟨k', v'⟩
      simp only [Frame.hasKey, List.any_cons, Bool.or_eq_false_iff] at hg
      rw [Frame.update_cons]
      rw [ih _ (by simpa [Frame.hasKey] using hg.2)]
      exact Frame.get?_set_ne f k' k v' (by simpa using hg.1)

theorem Frame.get?_update_of_hasKey (f g : Frame) (k : String)
    (hnd : (g.map Prod.fst).Nodup) (hg : g.hasKey k = true) :
    (f.update g).get? k = g.get? k := by
  induction g generalizing f with
  | nil => simp [Frame.hasKey] at hg
  | cons e t ih =>
      rcases e with ⟨k', v'⟩
      rw [Frame.update_cons]
      by_cases he : k' = k
      · subst he
        simp only [List.map_cons, List.nodup_cons] at hnd
        have ht : Frame.hasKey t k' = false := by
          rcases hk : Frame.hasKey t k' with _ | _
          · rfl
          · exact absurd (Frame.hasKey_iff.mp hk) hnd.1
        rw [Frame.get?_update_of_not_hasKey _ _ _ ht, Frame.get?_set_self]
        simp [Frame.get?]
      · simp only [Frame.hasKey, List.any_cons, Bool.or_eq_true] at hg
        rcases hg with hg | hg
        · exact absurd (by simpa using hg) he
        · simp only [List.map_cons, List.nodup_cons] at hnd
          rw [ih _ hnd.2 (by simpa [Frame.hasKey] using hg)]
          rw [Frame.get?, if_neg (by simpa using he)]

theorem Frame.update_eq_append (f g : Frame)
    (hdisj : ∀ k, g.hasKey k = true → f.hasKey k = false)
    (hnd : (g.map Prod.fst).Nodup) : f.update g = f ++ g := by
  induction g generalizing f with
  | nil => simp [Frame.update_nil]
  | cons e t ih =>
      rcases e with ⟨k', v'⟩
      rw [Frame.update_cons]
      have hf : f.hasKey k' = false := by
        apply hdisj
        simp [Frame.hasKey]
      rw [Frame.set_of_not_hasKey f k' v' hf]
      simp only [List.map_cons, List.nodup_cons] at hnd
      rw [ih (f ++ [(k', v')]) (fun k hk => by
        rw [Frame.hasKey_append]
        have h1 : Frame.hasKey f k = false := by
          apply hdisj
          simp only [Frame.hasKey, List.any_cons, Bool.or_eq_true]
          exact Or.inr (by simpa [Frame.hasKey] using hk)
        have h2 : (k' == k) = false := by
          have hne : k' ≠ k := by
            intro he
            exact hnd.1 (he ▸ Frame.hasKey_iff.mp hk)
          simpa using hne
        rw [h1]
        simp [Frame.hasKey, h2]) hnd.2]
      simp

/-! ## Claims about the Context data structure -/

/-- A sequence of `Context.__setitem__` writes, in order. -/
def writeAll (h : Heap) (c : Ctx) : List (String × Value) → Heap
  | [] => h
  | (k, v) :: rest => writeAll (Ctx.setItem h c k v) c rest

theorem writeAll_nodup (c : Ctx) (i0 : Nat) (hm : c = ⟨[i0]⟩) :
    ∀ (ws : List (String × Value)) (h : Heap), i0 < h.frames.length →
    (Ctx.allKeys h c).Nodup → (Ctx.allKeys (writeAll h c ws) c).Nodup := by
  intro ws
  induction ws with
  | nil => intro h _ hnd; exact hnd
  | cons e t ih =>
      rcases e with ⟨k, v⟩
      intro h hi hnd
      rw [writeAll]
      apply ih
      · rw [setItem_length]
        exact hi
      · subst hm
        exact setItem_allKeys_nodup h k v i0 [] hi (by simp) hnd

/-- C5: every resulting key of a sequence of writes to one Context is
distinct; a colliding (non-numeric) key is stored under the base key plus
the smallest unused integer suffix; writing `"x"` three times yields keys
`"x"`, `"x 1"`, `"x 2"` holding the three values in write order. -/
theorem c5_context_write_unique :
    (∀ ws : List (String × Value),
      (((writeAll ⟨[[]]⟩ ⟨[0]⟩ ws).getF 0).map Prod.fst).Nodup) ∧
    (∀ (h : Heap) (c : Ctx) (k : String) (v : Value) (i0 : Nat) (rest : List Nat),
      c.maps = i0 :: rest → i0 < h.frames.length →
      isNumericStr ((pySplitSpace k).getLastD "") = false →
      Ctx.containsKey h c k = true →
      ∃ j, 1 ≤ j ∧
        (Ctx.setItem h c k v).getF i0 = h.getF i0 ++ [(candKey k j, v)] ∧
        Ctx.containsKey h c (candKey k j) = false ∧
        (∀ j', 1 ≤ j' → j' < j → Ctx.containsKey h c (candKey k j') = true)) ∧
    (∀ v1 v2 v3 : Value,
      (writeAll ⟨[[]]⟩ ⟨[0]⟩ [("x", v1), ("x", v2), ("x", v3)]).getF 0
        = [("x", v1), ("x 1", v2), ("x 2", v3)]) := by
  refine ⟨?_, ?_, ?_⟩
  · intro ws
    have h := writeAll_nodup ⟨[0]⟩ 0 rfl ws ⟨[[]]⟩ (by simp) (by simp [Ctx.allKeys, Heap.getF])
    rw [allKeys_cons] at h
    simpa [Ctx.allKeys] using h
  · intro h c k v i0 rest hm hi hnum hk
    obtain ⟨j, hj1, hj2, hj3, hj4⟩ := renameKey_least h c k hnum hk
    exact ⟨j, hj3, by rw [setItem_getF_head h c k v i0 rest hm hi, hj1], hj2, hj4⟩
  · intro v1 v2 v3
    rfl

/-- Closed witness for C5 at a concrete collision. -/
theorem c5_context_write_unique_witness :
    isNumericStr (((pySplitSpace "x").getLastD "")) = false ∧
    Ctx.containsKey ⟨[[("x", .vInt 1)]]⟩ ⟨[0]⟩ "x" = true ∧
    ∃ j, 1 ≤ j ∧
      (Ctx.setItem ⟨[[("x", .vInt 1)]]⟩ ⟨[0]⟩ "x" (.vInt 2)).getF 0
        = ([("x", .vInt 1)] : Frame) ++ [(candKey "x" j, .vInt 2)] ∧
      Ctx.containsKey ⟨[[("x", .vInt 1)]]⟩ ⟨[0]⟩ (candKey "x" j) = false ∧
      (∀ j', 1 ≤ j' → j' < j →
        Ctx.containsKey ⟨[[("x", .vInt 1)]]⟩ ⟨[0]⟩ (candKey "x" j') = true) :=
  ⟨rfl, rfl,
    c5_context_write_unique.2.1 ⟨[[("x", .vInt 1)]]⟩ ⟨[0]⟩ "x" (.vInt 2) 0 []
      rfl (by simp) rfl rfl⟩

/-- C6 counterexample: `update_ext` applies no collision renaming.  For the
spec's own example — child frame `{"a":1, "a 1":2}`, parent frame `{"a":1}` —
the parent ends with the two keys `"a"`, `"a 1"`, not three; with
distinguishable values, the parent's prior value of `"a"` is overwritten by
the child's and lost. -/
theorem c6_counterexample :
    ((Ctx.updateExt ⟨[[("a", .vInt 1)], [("a", .vInt 1), ("a 1", .vInt 2)]]⟩
        ⟨[1, 0]⟩).map
      (fun h' => ((h'.getF 0).map Prod.fst, (h'.getF 0).length, h'.getF 1)))
      = some (["a", "a 1"], 2, []) ∧
    ((Ctx.updateExt ⟨[[("a", .vInt 1)], [("a", .vInt 10), ("a 1", .vInt 2)]]⟩
        ⟨[1, 0]⟩).map (fun h' => h'.getF 0))
      = some [("a", .vInt 10), ("a 1", .vInt 2)] :=
  ⟨rfl, rfl⟩

/-- The full characterization of `Context.update_ext` on a chain with a
parent frame: plain `dict.update` into the parent, then clear the child. -/
theorem updateExt_spec (h : Heap) (c : Ctx) (i0 i1 : Nat)
    (rest : List Nat) (hm : c.maps = i0 :: i1 :: rest) (hne : i0 ≠ i1)
    (hi0 : i0 < h.frames.length) (hi1 : i1 < h.frames.length) :
    ∃ h', Ctx.updateExt h c = some h' ∧
      h'.getF i1 = (h.getF i1).update (h.getF i0) ∧
      h'.getF i0 = [] ∧
      (∀ j, j ≠ i0 → j ≠ i1 → h'.getF j = h.getF j) ∧
      (∀ k, (h.getF i0).hasKey k = false →
        (h'.getF i1).get? k = (h.getF i1).get? k) ∧
      (∀ k, ((h.getF i0).map Prod.fst).Nodup → (h.getF i0).hasKey k = true →
        (h'.getF i1).get? k = (h.getF i0).get? k) ∧
      ((∀ k, (h.getF i0).hasKey k = true → (h.getF i1).hasKey k = false) →
        ((h.getF i0).map Prod.fst).Nodup →
        h'.getF i1 = h.getF i1 ++ h.getF i0) := by
  have hstep : Ctx.updateExt h c
      = some ((h.setF i1 ((h.getF i1).update (h.getF i0))).setF i0 []) := by
    unfold Ctx.updateExt
    rw [hm]
  refine ⟨_, hstep, ?_, ?_, ?_, ?_, ?_, ?_⟩
  · rw [Heap.getF_setF_ne _ _ _ _ (Ne.symm hne)]
    exact Heap.getF_setF_self h i1 _ hi1
  · apply Heap.getF_setF_self
    rw [Heap.length_setF]
    exact hi0
  · intro j hj0 hj1
    rw [Heap.getF_setF_ne _ _ _ _ hj0, Heap.getF_setF_ne _ _ _ _ hj1]
  · intro k hk
    rw [Heap.getF_setF_ne _ _ _ _ (Ne.symm hne), Heap.getF_setF_self h i1 _ hi1]
    exact Frame.get?_update_of_not_hasKey _ _ _ hk
  · intro k hnd hk
    rw [Heap.getF_setF_ne _ _ _ _ (Ne.symm hne), Heap.getF_setF_self h i1 _ hi1]
    exact Frame.get?_update_of_hasKey _ _ _ hnd hk
  · intro hdisj hnd
    rw [Heap.getF_setF_ne _ _ _ _ (Ne.symm hne), Heap.getF_setF_self h i1 _ hi1]
    exact Frame.update_eq_append _ _ hdisj hnd

/-- C6 (amended): `update_ext` copies every entry of the child frame into the
parent frame with plain `dict.update` overwrite semantics — a key already
present in the parent keeps its position but takes the child's value, keys
only in the parent are untouched, keys only in the child are appended — and
the child frame is emptied; no collision renaming happens, so a parent value
whose key also occurs in the child frame is overwritten.  Only when the
child and parent keys are disjoint are the entries appended with no loss. -/
theorem c6_promote_plain_update (h : Heap) (c : Ctx) (i0 i1 : Nat)
    (rest : List Nat) (hm : c.maps = i0 :: i1 :: rest) (hne : i0 ≠ i1)
    (hi0 : i0 < h.frames.length) (hi1 : i1 < h.frames.length) :
    ∃ h', Ctx.updateExt h c = some h' ∧
      h'.getF i1 = (h.getF i1).update (h.getF i0) ∧
      h'.getF i0 = [] ∧
      (∀ j, j ≠ i0 → j ≠ i1 → h'.getF j = h.getF j) ∧
      (∀ k, (h.getF i0).hasKey k = false →
        (h'.getF i1).get? k = (h.getF i1).get? k) ∧
      (∀ k, ((h.getF i0).map Prod.fst).Nodup → (h.getF i0).hasKey k = true →
        (h'.getF i1).get? k = (h.getF i0).get? k) ∧
      ((∀ k, (h.getF i0).hasKey k = true → (h.getF i1).hasKey k = false) →
        ((h.getF i0).map Prod.fst).Nodup →
        h'.getF i1 = h.getF i1 ++ h.getF i0) :=
  updateExt_spec h c i0 i1 rest hm hne hi0 hi1

/-- Closed witness for the amended C6 at the spec's example frames. -/
theorem c6_promote_plain_update_witness :
    ∃ h', Ctx.updateExt ⟨[[("a", .vInt 1)], [("a", .vInt 1), ("a 1", .vInt 2)]]⟩
        ⟨[1, 0]⟩ = some h' ∧
      h'.getF 0 = Frame.update [("a", .vInt 1)]
        [("a", .vInt 1), ("a 1", .vInt 2)] ∧
      h'.getF 1 = [] := by
  obtain ⟨h', h1, h2, h3, _⟩ := c6_promote_plain_update
    ⟨[[("a", .vInt 1)], [("a", .vInt 1), ("a 1", .vInt 2)]]⟩ ⟨[1, 0]⟩ 1 0 []
    rfl (by decide) (by simp) (by simp)
  exact ⟨h', h1, h2, h3⟩

/-- C9: collision renaming is resolved against the entire outward frame
chain: any requested key already visible anywhere in the chain (in
particular one present only in an enclosing frame) is stored in the
innermost frame under a fresh numeric-suffixed variant, and every write
preserves global key distinctness over the whole chain. -/
theorem c9_chain_collision_rename :
    (∀ (h : Heap) (c : Ctx) (k : String), Ctx.containsKey h c k = true →
      Ctx.renameKey h c k ≠ k ∧
      Ctx.containsKey h c (Ctx.renameKey h c k) = false ∧
      ∃ base j, Ctx.renameKey h c k = candKey base j) ∧
    (∀ (h : Heap) (c : Ctx) (k : String) (v : Value) (i0 : Nat) (rest : List Nat),
      c.maps = i0 :: rest → i0 < h.frames.length →
      (Ctx.setItem h c k v).getF i0 = h.getF i0 ++ [(Ctx.renameKey h c k, v)] ∧
      (∀ j, j ≠ i0 → (Ctx.setItem h c k v).getF j = h.getF j)) ∧
    (∀ (h : Heap) (k : String) (v : Value) (i0 : Nat) (rest : List Nat),
      i0 < h.frames.length → i0 ∉ rest →
      (Ctx.allKeys h ⟨i0 :: rest⟩).Nodup →
      (Ctx.allKeys (Ctx.setItem h ⟨i0 :: rest⟩ k v) ⟨i0 :: rest⟩).Nodup) := by
  refine ⟨?_, ?_, ?_⟩
  · intro h c k hk
    have hfree := renameKey_not_contains h c k
    refine ⟨?_, hfree, renameKey_of_contains h c k hk⟩
    intro he
    rw [he, hk] at hfree
    cases hfree
  · intro h c k v i0 rest hm hi
    refine ⟨setItem_getF_head h c k v i0 rest hm hi, ?_⟩
    intro j hj
    apply setItem_getF_ne
    intro a b hab
    rw [hm] at hab
    have hab' : i0 :: rest = a :: b := hab
    have ha : i0 = a := by injection hab'
    rw [← ha]
    exact hj
  · intro h k v i0 rest hi hnr hnd
    exact setItem_allKeys_nodup h k v i0 rest hi hnr hnd

/-- Closed witness for C9: key `"k"` lives only in the enclosing frame of a
child context; the write lands in the child frame under `"k 1"`. -/
theorem c9_chain_collision_rename_witness :
    Ctx.containsKey ⟨[[], [("k", .vInt 7)]]⟩ ⟨[0, 1]⟩ "k" = true ∧
    Ctx.renameKey ⟨[[], [("k", .vInt 7)]]⟩ ⟨[0, 1]⟩ "k" ≠ "k" ∧
    Ctx.containsKey ⟨[[], [("k", .vInt 7)]]⟩ ⟨[0, 1]⟩
      (Ctx.renameKey ⟨[[], [("k", .vInt 7)]]⟩ ⟨[0, 1]⟩ "k") = false ∧
    (Ctx.setItem ⟨[[], [("k", .vInt 7)]]⟩ ⟨[0, 1]⟩ "k" (.vInt 8)).getF 0
      = ([] : Frame) ++ [(Ctx.renameKey ⟨[[], [("k", .vInt 7)]]⟩ ⟨[0, 1]⟩ "k", .vInt 8)] := by
  obtain ⟨hne, hfree, _⟩ :=
    c9_chain_collision_rename.1 ⟨[[], [("k", .vInt 7)]]⟩ ⟨[0, 1]⟩ "k" rfl
  obtain ⟨hhead, _⟩ :=
    c9_chain_collision_rename.2.1 ⟨[[], [("k", .vInt 7)]]⟩ ⟨[0, 1]⟩ "k" (.vInt 8)
      0 [1] rfl (by simp)
  exact ⟨rfl, hne, hfree, hhead⟩

/-- C7: spacer resolution.  When the cursor already sits at the pinned
target no entry is added; when it is below the target the gap bytes are
read and stored under `spacer_<start>-<end-1>` (or `spacer_<start>` for a
one-unit gap), with the usual collision renaming applied. -/
theorem c7_spacer_spec :
    (∀ (st : St) (c : Ctx) (stopAddr : Nat), stopAddr = st.mgr.address →
      spacer st c stopAddr = (.ok (), st)) ∧
    (∀ (st : St) (c : Ctx) (stopAddr : Nat) (i0 : Nat) (rest : List Nat),
      c.maps = i0 :: rest → i0 < st.heap.frames.length →
      st.mgr.address < stopAddr →
      st.mgr.pos + (stopAddr - st.mgr.address) ≤ st.mgr.data.length →
      (spacer st c stopAddr).1 = .ok () ∧
      (spacer st c stopAddr).2.mgr
        = ⟨st.mgr.data, st.mgr.pos + (stopAddr - st.mgr.address), st.mgr.base⟩ ∧
      ∃ key,
        key = Ctx.renameKey st.heap c
          (if 1 < stopAddr - st.mgr.address then
            "spacer_" ++ pyHex st.mgr.address ++ "-" ++ pyHex (stopAddr - 1)
          else "spacer_" ++ pyHex st.mgr.address) ∧
        Ctx.containsKey st.heap c key = false ∧
        (spacer st c stopAddr).2.heap.getF i0
          = st.heap.getF i0
            ++ [(key, .vBytes ((st.mgr.data.drop st.mgr.pos).take
                  (stopAddr - st.mgr.address)))] ∧
        (∀ j, j ≠ i0 → (spacer st c stopAddr).2.heap.getF j = st.heap.getF j)) := by
  constructor
  · intro st c stopAddr he
    unfold spacer
    rw [if_pos he]
  · intro st c stopAddr i0 rest hm hi hlt hdata
    have hread : st.mgr.readBytes (stopAddr - st.mgr.address)
        = .ok ((st.mgr.data.drop st.mgr.pos).take (stopAddr - st.mgr.address),
            ⟨st.mgr.data, st.mgr.pos + (stopAddr - st.mgr.address), st.mgr.base⟩) := by
      unfold Mgr.readBytes
      rw [if_pos hdata]
    have hne : ¬ stopAddr = st.mgr.address := by omega
    have hnlt : ¬ stopAddr < st.mgr.address := by omega
    have hspacer : spacer st c stopAddr
        = (.ok (), ⟨Ctx.setItem st.heap c
            (if 1 < stopAddr - st.mgr.address then
              "spacer_" ++ pyHex st.mgr.address ++ "-" ++ pyHex (stopAddr - 1)
            else "spacer_" ++ pyHex st.mgr.address)
            (.vBytes ((st.mgr.data.drop st.mgr.pos).take
              (stopAddr - st.mgr.address))),
          ⟨st.mgr.data, st.mgr.pos + (stopAddr - st.mgr.address), st.mgr.base⟩⟩) := by
      unfold spacer
      rw [if_neg hne, if_neg hnlt, hread]
    refine ⟨by rw [hspacer], by rw [hspacer], ?_⟩
    refine ⟨_, rfl, renameKey_not_contains _ _ _, ?_, ?_⟩
    · rw [hspacer]
      exact setItem_getF_head st.heap c _ _ i0 rest hm hi
    · intro j hj
      rw [hspacer]
      apply setItem_getF_ne
      intro a b hab
      rw [hm] at hab
      have hab' : i0 :: rest = a :: b := hab
      have ha : i0 = a := by injection hab'
      rw [← ha]
      exact hj

/-- C3 (code bug): in `Repeat.read` and `Array.read` the count-resolution
code is `if isinstance(str): … ; if isinstance(int): … ; else: raise
ValueError` — the second `if` should be `elif`, so a string count key is
looked up and then unconditionally discarded with a fatal `ValueError`.
Here `"n"` resolves to the integer 2 in the context chain, yet both reads
raise instead of running the wrapped parser twice. -/
theorem c3_string_count_always_fatal :
    getFromContexts ⟨[[("n", .vInt 2)]]⟩ [⟨[0]⟩] "n" = some (.vInt 2) ∧
    (mkRepeat mkByte (.inr "n")).map
      (fun rep => (readP 10 rep [⟨[0]⟩]
        ⟨⟨[[("n", .vInt 2)]]⟩, ⟨[65, 66, 67], 0, 0⟩⟩).1)
      = .ok (.error .valueErr) ∧
    (mkArray mkByte (.inr "n")).map
      (fun arr => (readP 10 arr [⟨[0]⟩]
        ⟨⟨[[("n", .vInt 2)]]⟩, ⟨[65, 66, 67], 0, 0⟩⟩).1)
      = .ok (.error .valueErr) :=
  ⟨rfl, rfl, rfl⟩

theorem modifierCfg_address (p : Parser) (b : Option String) :
    (modifierCfg p b).address
      = match p.cfg.address with
        | some a => if a ≠ 0 then some a else none
        | none => none := rfl

theorem mkRepeat_ok {p : Parser} {q : Sum Int String} {rep : Parser}
    (h : mkRepeat p q = .ok rep) : rep = ⟨modifierCfg p none, .repeatP p q⟩ := by
  unfold mkRepeat at h
  rcases hv : validateAddrLen q 1 with e | u <;> rw [hv] at h
  · cases h
  · injection h with h'
    exact h'.symm

theorem mkArray_ok {p : Parser} {q : Sum Int String} {arr : Parser}
    (h : mkArray p q = .ok arr) : arr = ⟨modifierCfg p none, .arrayP p q⟩ := by
  unfold mkArray at h
  rcases hv : validateAddrLen q 0 with e | u <;> rw [hv] at h
  · cases h
  · injection h with h'
    exact h'.symm

/-- C10: `Modifier.__init__` copies the wrapped parser's pinned address only
when it is truthy, so an address pinned at `0` becomes unset (`None`) on the
wrapper, while any positive address is copied — for `Translator`, `Repeat`
and `Array` alike. -/
theorem c10_modifier_address_truthiness :
    (∀ (p : Parser) (f : RRes → RRes) (b : Option String) (q : Sum Int String),
      p.cfg.address = some 0 →
      (mkTranslator p f b).cfg.address = none ∧
      (∀ rep, mkRepeat p q = .ok rep → rep.cfg.address = none) ∧
      (∀ arr, mkArray p q = .ok arr → arr.cfg.address = none)) ∧
    (∀ (p : Parser) (f : RRes → RRes) (b : Option String) (q : Sum Int String)
        (a : Nat),
      0 < a → p.cfg.address = some a →
      (mkTranslator p f b).cfg.address = some a ∧
      (∀ rep, mkRepeat p q = .ok rep → rep.cfg.address = some a) ∧
      (∀ arr, mkArray p q = .ok arr → arr.cfg.address = some a)) := by
  have haddr0 : ∀ (p : Parser) (b : Option String), p.cfg.address = some 0 →
      (modifierCfg p b).address = none := by
    intro p b h
    rw [modifierCfg_address, h]
    simp
  have haddrp : ∀ (p : Parser) (b : Option String) (a : Nat), a ≠ 0 →
      p.cfg.address = some a → (modifierCfg p b).address = some a := by
    intro p b a ha h
    rw [modifierCfg_address, h]
    simp [ha]
  constructor
  · intro p f b q h0
    refine ⟨haddr0 p b h0, ?_, ?_⟩
    · intro rep hrep
      rw [mkRepeat_ok hrep]
      exact haddr0 p none h0
    · intro arr harr
      rw [mkArray_ok harr]
      exact haddr0 p none h0
  · intro p f b q a ha hp
    have hne : a ≠ 0 := by omega
    refine ⟨haddrp p b a hne hp, ?_, ?_⟩
    · intro rep hrep
      rw [mkRepeat_ok hrep]
      exact haddrp p none a hne hp
    · intro arr harr
      rw [mkArray_ok harr]
      exact haddrp p none a hne hp

/-- Closed witness for C10: a byte parser pinned at 0 loses its address
through `Translator`; pinned at 3 it keeps it. -/
theorem c10_modifier_address_truthiness_witness :
    (mkTranslator ⟨⟨none, some 0, .BYTE, some "Byte"⟩, .byteP⟩
      (fun r => r) none).cfg.address = none ∧
    (mkTranslator ⟨⟨none, some 3, .BYTE, some "Byte"⟩, .byteP⟩
      (fun r => r) none).cfg.address = some 3 :=
  ⟨(c10_modifier_address_truthiness.1 ⟨⟨none, some 0, .BYTE, some "Byte"⟩, .byteP⟩
      (fun r => r) none (.inl 1) rfl).1,
   (c10_modifier_address_truthiness.2 ⟨⟨none, some 3, .BYTE, some "Byte"⟩, .byteP⟩
      (fun r => r) none (.inl 1) 3 (by omega) rfl).1⟩

/-! ## Helper lemmas: one-step unfoldings of the engine -/

theorem gotoRead_rev (fuel : Nat) (p : Parser) (c : Ctx) (rest : List Ctx)
    (st st₂ : St) (hA : p.cfg.address = none)
    (hRAT : readAndTranslate fuel p (c :: rest) st = (.ok .rev, st₂)) :
    gotoRead (fuel + 1) p (c :: rest) st = (.ok .rev, st₂) := by
  rw [gotoRead, hA]
  simp only
  rw [hRAT]

theorem gotoRead_val (fuel : Nat) (p : Parser) (c : Ctx) (rest : List Ctx)
    (st st₂ : St) (v : Value) (l : String) (hA : p.cfg.address = none)
    (hRAT : readAndTranslate fuel p (c :: rest) st = (.ok (.val v), st₂))
    (hsl : storeLabel p (some st.mgr.address) = some l) :
    gotoRead (fuel + 1) p (c :: rest) st
      = (.ok .succ, ⟨Ctx.setItem st₂.heap c l v, st₂.mgr⟩) := by
  rw [gotoRead, hA]
  simp only
  rw [hRAT]
  simp only [store, hsl]

theorem gotoRead_ctx (fuel : Nat) (p : Parser) (c : Ctx) (rest : List Ctx)
    (st st₂ : St) (cc : Ctx) (hA : p.cfg.address = none)
    (hRAT : readAndTranslate fuel p (c :: rest) st = (.ok (.ctx cc), st₂)) :
    gotoRead (fuel + 1) p (c :: rest) st
      = (match Ctx.updateExt st₂.heap cc with
         | none => (.error .runtimeErr, st₂)
         | some h' => (.ok .succ, ⟨h', st₂.mgr⟩)) := by
  rw [gotoRead, hA]
  simp only
  rw [hRAT]

theorem gotoRead_err (fuel : Nat) (p : Parser) (c : Ctx) (rest : List Ctx)
    (st st₂ : St) (e : Err) (hA : p.cfg.address = none)
    (hRAT : readAndTranslate fuel p (c :: rest) st = (.error e, st₂)) :
    gotoRead (fuel + 1) p (c :: rest) st = (.error e, st₂) := by
  rw [gotoRead, hA]
  simp only
  rw [hRAT]

/-- `Block.read` can only produce an error, `Reverted`, or a `dict`
snapshot — never a bare `Context` and never `None`. -/
theorem readP_block_shape (fuel : Nat) (cfg : PCfg) (rel opt : Bool)
    (elems : List Parser) (cs : List Ctx) (st : St) (r : Except Err RRes)
    (st₂ : St)
    (hexec : readP (fuel + 1) ⟨cfg, .block rel opt elems⟩ cs st = (r, st₂)) :
    (∃ e, r = .error e) ∨ r = .ok .rev ∨ ∃ d, r = .ok (.val (.vDict d)) := by
  rw [readP] at hexec
  simp only [Parser.kind] at hexec
  rcases hE : readElems fuel elems
      (⟨[(enterRegion st rel).1.heap.frames.length]⟩ :: cs)
      ⟨((enterRegion st rel).1.heap.alloc).1, (enterRegion st rel).1.mgr⟩
    with ⟨res, stE⟩
  rw [show ((enterRegion st rel).1.heap.alloc).2
      = (enterRegion st rel).1.heap.frames.length from rfl] at hexec
  rw [hE] at hexec
  rcases res with e | u
  · dsimp only at hexec
    by_cases hopt : opt ∧ e = .parseErr
    · rw [if_pos (by simpa using hopt)] at hexec
      injection hexec with h1 h2
      exact Or.inr (Or.inl h1.symm)
    · rw [if_neg (by simpa using hopt)] at hexec
      injection hexec with h1 h2
      exact Or.inl ⟨e, h1.symm⟩
  · dsimp only at hexec
    injection hexec with h1 h2
    exact Or.inr (Or.inr ⟨_, h1.symm⟩)

/-- C1 (amended): every `Block`, labeled or not, has its accumulated mapping
stored as a single nested `dict` value in the caller's context: under its
label when one is present, otherwise under the synthesized backup label
`"Block_" + hex(start address)`; its entries are never flattened into the
caller.  (`Block.read` itself can only yield an error, `Reverted`, or a
`dict` snapshot.) -/
theorem c1_block_always_nests :
    (∀ (fuel : Nat) (cfg : PCfg) (rel opt : Bool) (elems : List Parser)
        (cs : List Ctx) (st : St) (r : Except Err RRes) (st₂ : St),
      readP (fuel + 1) ⟨cfg, .block rel opt elems⟩ cs st = (r, st₂) →
      (∃ e, r = .error e) ∨ r = .ok .rev ∨ ∃ d, r = .ok (.val (.vDict d))) ∧
    (∀ (fuel : Nat) (cfg : PCfg) (rel opt : Bool) (elems : List Parser)
        (c : Ctx) (rest : List Ctx) (st st₂ : St) (v : Value) (l : String),
      cfg.address = none →
      readAndTranslate fuel ⟨cfg, .block rel opt elems⟩ (c :: rest) st
        = (.ok (.val v), st₂) →
      (cfg.label = some l ∧ l ≠ "" ∨
        (cfg.label = none ∧ cfg.backupLabel = some "Block" ∧
          l = "Block" ++ "_" ++ pyHex st.mgr.address)) →
      gotoRead (fuel + 1) ⟨cfg, .block rel opt elems⟩ (c :: rest) st
        = (.ok .succ, ⟨Ctx.setItem st₂.heap c l v, st₂.mgr⟩) ∧
      (∀ i0 maps0, c.maps = i0 :: maps0 → i0 < st₂.heap.frames.length →
        (Ctx.setItem st₂.heap c l v).getF i0
          = st₂.heap.getF i0 ++ [(Ctx.renameKey st₂.heap c l, v)])) := by
  constructor
  · exact readP_block_shape
  · intro fuel cfg rel opt elems c rest st st₂ v l hA hRAT hl
    have hsl : storeLabel ⟨cfg, .block rel opt elems⟩ (some st.mgr.address)
        = some l := by
      rcases hl with ⟨hsome, hne⟩ | ⟨hnone, hbackup, hval⟩
      · simp [storeLabel, Parser.cfg, optTruthy, hsome, hne]
      · simp [storeLabel, Parser.cfg, optTruthy, hnone, hbackup, hval]
    refine ⟨gotoRead_val fuel _ c rest st st₂ v l hA hRAT hsl, ?_⟩
    intro i0 maps0 hm hi
    exact setItem_getF_head st₂.heap c l v i0 maps0 hm hi

/-- Closed witness for C1 at a one-field unlabeled block: the dict is stored
nested under `Block_0x0`. -/
theorem c1_block_always_nests_witness :
    gotoRead 10 (mkBlock [withLabel mkByte "f"] true .PARENT false)
      [⟨[0]⟩] ⟨⟨[[]]⟩, ⟨[65, 66], 0, 0⟩⟩
      = (.ok .succ,
          ⟨Ctx.setItem ⟨[[], [("f", .vBytes [65])]]⟩ ⟨[0]⟩ "Block_0x0"
            (.vDict [("f", .vBytes [65])]),
          ⟨[65, 66], 1, 0⟩⟩) :=
  (c1_block_always_nests.2 9 ⟨none, none, .PARENT, some "Block"⟩ true false
    [withLabel mkByte "f"] ⟨[0]⟩ [] ⟨⟨[[]]⟩, ⟨[65, 66], 0, 0⟩⟩
    ⟨⟨[[], [("f", .vBytes [65])]]⟩, ⟨[65, 66], 1, 0⟩⟩
    (.vDict [("f", .vBytes [65])]) "Block_0x0" rfl rfl
    (Or.inr ⟨rfl, rfl, rfl⟩)).1

/-- C1 counterexample: an unlabeled `Block` does *not* flatten — parsing a
one-field block stores the whole accumulated mapping nested under the
synthesized key `Block_0x0`, and the child's key `"f"` does not appear in
the caller's result. -/
theorem c1_counterexample :
    parseTop 10 (mkBlock [withLabel mkByte "f"] true .PARENT false) [65, 66]
      = .ok [("Block_0x0", .vDict [("f", .vBytes [65])])] ∧
    (parseTop 10 (mkBlock [withLabel mkByte "f"] true .PARENT false) [65, 66]).map
      (fun fr => fr.hasKey "f") = .ok false :=
  ⟨rfl, rfl⟩

/-- C2 counterexample: a *labeled* `Section` does not store its entries
under its label — they are flattened into the caller's result and the label
`"s"` never appears. -/
theorem c2_counterexample :
    parseTop 10
      (withLabel (mkSection [withLabel mkByte "f"] true .PARENT false) "s")
      [65, 66] = .ok [("f", .vBytes [65])] ∧
    (parseTop 10
      (withLabel (mkSection [withLabel mkByte "f"] true .PARENT false) "s")
      [65, 66]).map (fun fr => fr.hasKey "s") = .ok false :=
  ⟨rfl, rfl⟩

/-- Closed witness for C7: a two-byte gap and an exact-address hit. -/
theorem c7_spacer_spec_witness :
    spacer ⟨⟨[[]]⟩, ⟨[7, 8, 9], 0, 0⟩⟩ ⟨[0]⟩ 0 = (.ok (), ⟨⟨[[]]⟩, ⟨[7, 8, 9], 0, 0⟩⟩) ∧
    (spacer ⟨⟨[[]]⟩, ⟨[7, 8, 9], 0, 0⟩⟩ ⟨[0]⟩ 2).1 = .ok () ∧
    (spacer ⟨⟨[[]]⟩, ⟨[7, 8, 9], 0, 0⟩⟩ ⟨[0]⟩ 2).2.heap.getF 0
      = [("spacer_0x0-0x1", .vBytes [7, 8])] := by
  refine ⟨c7_spacer_spec.1 _ _ 0 rfl, ?_, ?_⟩
  · exact (c7_spacer_spec.2 ⟨⟨[[]]⟩, ⟨[7, 8, 9], 0, 0⟩⟩ ⟨[0]⟩ 2 0 [] rfl
      (by simp) (by simp [Mgr.address]) (by simp [Mgr.address])).1
  · rfl

/-! ## The frame-preservation invariant

The engine's writes follow the chain discipline: a call only ever mutates
the innermost frame of the context it was handed (plus frames it allocates
itself), so a reverted optional region leaves every frame of the
surrounding contexts untouched.  The `translate_func` of a `Translator` is
a value transformer; one that fabricated a foreign `Context` object could
smuggle writes elsewhere, so the invariant assumes translators never return
a context (`NoCtxTrans`), which holds for every translator the library's
spec describes (§4.5: a user-supplied pure value post-processor). -/

mutual

def NoCtxTrans : Parser → Prop
  | .mk _ k => NoCtxTransK k

def NoCtxTransK : PKind → Prop
  | .byteP => True
  | .bytesP _ => True
  | .failP => True
  | .block _ _ elems => NoCtxTransL elems
  | .section _ _ elems => NoCtxTransL elems
  | .translator inner f => (∀ r cc, f r ≠ .ctx cc) ∧ NoCtxTrans inner
  | .repeatP inner _ => NoCtxTrans inner
  | .arrayP inner _ => NoCtxTrans inner

def NoCtxTransL : List Parser → Prop
  | [] => True
  | e :: rest => NoCtxTrans e ∧ NoCtxTransL rest

end

/-- The innermost frame id of the innermost context, the only caller-owned
frame the engine may write. -/
def headFrame? : List Ctx → Option Nat
  | [] => none
  | c :: _ => c.maps.head?

/-- The chain of the innermost context. -/
def headMaps (cs : List Ctx) : List Nat := (cs.headD ⟨[]⟩).maps

/-- The child `readElems` run of `readP`'s `block` branch (`Block.read`,
`core.py` lines 311-317): a fresh single-frame context pushed onto the
caller's tuple, inside the entered region. -/
def blockChildRun (fuel : Nat) (rel : Bool) (elems : List Parser)
    (cs : List Ctx) (st : St) : (Except Err Unit) × St :=
  readElems fuel elems (⟨[(enterRegion st rel).1.heap.frames.length]⟩ :: cs)
    ⟨((enterRegion st rel).1.heap.alloc).1, (enterRegion st rel).1.mgr⟩

/-- The child `readElems` run of `readP`'s `section` branch (`Section.read`,
`core.py` lines 338-344): a chained child of the caller's innermost context,
inside the entered region. -/
def sectionChildRun (fuel : Nat) (rel : Bool) (elems : List Parser)
    (c : Ctx) (rest : List Ctx) (st : St) : (Except Err Unit) × St :=
  readElems fuel elems ((Ctx.newChild (enterRegion st rel).1.heap c).2 :: rest)
    ⟨(Ctx.newChild (enterRegion st rel).1.heap c).1, (enterRegion st rel).1.mgr⟩

/-- The per-iteration instrumentation of `arrayLoop`: identical control flow
and state evolution, but it records one `Option Value` per iteration —
`none` exactly when the iteration's result was `None` (which `Array.read`'s
`elif result is not None` silently drops) — instead of appending a slice. -/
def arrayTrace : Nat → Parser → Nat → List Ctx → St →
    (Except Err (List (Option Value))) × St
  | 0, _, _, _, st => (.error .fuelErr, st)
  | _ + 1, _, 0, _, st => (.ok [], st)
  | fuel + 1, inner, reps + 1, cs, st =>
      let (st1, savedBase, _) := enterRegion st true
      let (h2, fid) := st1.heap.alloc
      let outC : Ctx := ⟨[fid]⟩
      match readAndTranslate fuel inner (outC :: cs.tail) ⟨h2, st1.mgr⟩ with
      | (.error e, st2) => (.error e, exitCommit st2 savedBase)
      | (.ok r, st2) =>
          let slot : Option Value :=
            match r with
            | .rev => some (.vList [])
            | .ctx cc => some (.vDict (Ctx.snapshot st2.heap cc))
            | .none_ => none
            | .succ => some .vSuccess
            | .val v => some v
          match arrayTrace fuel inner reps cs (exitCommit st2 savedBase) with
          | (.ok restSlots, st4) => (.ok (slot :: restSlots), st4)
          | (.error e, st4) => (.error e, st4)

theorem setItem_getF_ne' (h : Heap) (c : Ctx) (k : String) (v : Value) (j : Nat)
    (hj : some j ≠ c.maps.head?) : (Ctx.setItem h c k v).getF j = h.getF j := by
  apply setItem_getF_ne
  intro i0 rest hm
  intro he
  rw [hm] at hj
  exact hj (by rw [he]; rfl)

theorem spacer_heap (st : St) (c : Ctx) (a : Nat) :
    (spacer st c a).2.heap.frames.length = st.heap.frames.length ∧
    ∀ j, some j ≠ c.maps.head? → (spacer st c a).2.heap.getF j = st.heap.getF j := by
  unfold spacer
  by_cases h1 : a = st.mgr.address
  · rw [if_pos h1]
    exact ⟨rfl, fun j _ => rfl⟩
  · rw [if_neg h1]
    by_cases h2 : a < st.mgr.address
    · rw [if_pos h2]
      exact ⟨rfl, fun j _ => rfl⟩
    · rw [if_neg h2]
      rcases hr : st.mgr.readBytes (a - st.mgr.address) with e | ⟨bs, m'⟩
      · exact ⟨rfl, fun j _ => rfl⟩
      · exact ⟨setItem_length _ _ _ _, fun j hj => setItem_getF_ne' _ _ _ _ j hj⟩

theorem store_heap (p : Parser) (c : Ctx) (v : Value) (a : Option Nat) (st : St) :
    (store p c v a st).2.heap.frames.length = st.heap.frames.length ∧
    ∀ j, some j ≠ c.maps.head? → (store p c v a st).2.heap.getF j = st.heap.getF j := by
  unfold store
  rcases hsl : storeLabel p a with _ | l
  · exact ⟨rfl, fun j _ => rfl⟩
  · exact ⟨setItem_length _ _ _ _, fun j hj => setItem_getF_ne' _ _ _ _ j hj⟩

theorem updateExt_heap {h h' : Heap} {c : Ctx} (hu : Ctx.updateExt h c = some h') :
    h'.frames.length = h.frames.length ∧
    ∀ j, some j ≠ c.maps.head? → some j ≠ c.maps.tail.head? →
      h'.getF j = h.getF j := by
  unfold Ctx.updateExt at hu
  rcases hm : c.maps with _ | ⟨i0, rest⟩
  · rw [hm] at hu
    cases hu
  · rcases rest with _ | ⟨i1, rest'⟩
    · rw [hm] at hu
      cases hu
    · rw [hm] at hu
      injection hu with hu
      rw [← hu]
      constructor
      · rw [Heap.length_setF, Heap.length_setF]
      · intro j hj0 hj1
        simp only [List.head?_cons, List.tail_cons] at hj0 hj1
        rw [Heap.getF_setF_ne _ _ _ _ (fun he => hj0 (by rw [he])),
          Heap.getF_setF_ne _ _ _ _ (fun he => hj1 (by rw [he]))]

theorem exitCommit_heap (st : St) (sb : Nat) : (exitCommit st sb).heap = st.heap := rfl

theorem exitRevert_heap (st : St) (sb sp : Nat) :
    (exitRevert st sb sp).heap = st.heap := rfl

/-- Heap sizes never shrink. -/
abbrev SizeMono (st st' : St) : Prop :=
  st.heap.frames.length ≤ st'.heap.frames.length

/-- All caller frames except (at most) `w` are bit-for-bit preserved. -/
abbrev PreservedExcept (st st' : St) (w : Option Nat) : Prop :=
  ∀ i, i < st.heap.frames.length → some i ≠ w → st'.heap.getF i = st.heap.getF i

/-- A returned `Context` is always a fresh frame chained onto the innermost
context the call was handed. -/
abbrev CtxShape (cs : List Ctx) (st st' : St) (r : Except Err RRes) : Prop :=
  ∀ cc, r = .ok (.ctx cc) →
    ∃ f, cc.maps = f :: headMaps cs ∧ st.heap.frames.length ≤ f ∧
      f < st'.heap.frames.length

def InvRP (fuel : Nat) : Prop :=
  ∀ p cs st r st', NoCtxTrans p → readP fuel p cs st = (r, st') →
    SizeMono st st' ∧ PreservedExcept st st' (headFrame? cs) ∧ CtxShape cs st st' r

def InvRAT (fuel : Nat) : Prop :=
  ∀ p cs st r st', NoCtxTrans p → readAndTranslate fuel p cs st = (r, st') →
    SizeMono st st' ∧ PreservedExcept st st' (headFrame? cs) ∧ CtxShape cs st st' r

def InvGR (fuel : Nat) : Prop :=
  ∀ p cs st r st', NoCtxTrans p → gotoRead fuel p cs st = (r, st') →
    SizeMono st st' ∧ PreservedExcept st st' (headFrame? cs)

def InvRE (fuel : Nat) : Prop :=
  ∀ elems cs st r st', NoCtxTransL elems → readElems fuel elems cs st = (r, st') →
    SizeMono st st' ∧ PreservedExcept st st' (headFrame? cs)

def InvRL (fuel : Nat) : Prop :=
  ∀ p inner reps cs results st r st', NoCtxTrans inner →
    repeatLoop fuel p inner reps cs results st = (r, st') →
    SizeMono st st' ∧
    ∀ i, i < st.heap.frames.length → some i ≠ headFrame? cs →
      some i ≠ results.maps.head? → st'.heap.getF i = st.heap.getF i

def InvAL (fuel : Nat) : Prop :=
  ∀ inner reps cs st r st', NoCtxTrans inner →
    arrayLoop fuel inner reps cs st = (r, st') →
    SizeMono st st' ∧
    ∀ i, i < st.heap.frames.length → st'.heap.getF i = st.heap.getF i

theorem inv_of_heap_eq {cs : List Ctx} {st st' : St} {r : Except Err RRes}
    (hh : st'.heap = st.heap) (hctx : ∀ cc, r ≠ Except.ok (RRes.ctx cc)) :
    SizeMono st st' ∧ PreservedExcept st st' (headFrame? cs) ∧ CtxShape cs st st' r :=
  ⟨le_of_eq (by rw [hh]), fun i _ _ => by rw [hh],
   fun cc hcc => absurd hcc (hctx cc)⟩

theorem engineInv : ∀ fuel, InvRP fuel ∧ InvRAT fuel ∧ InvGR fuel ∧ InvRE fuel ∧
    InvRL fuel ∧ InvAL fuel := by
  intro fuel
  induction fuel with
  | zero =>
      refine ⟨?_, ?_, ?_, ?_, ?_, ?_⟩
      · intro p cs st r st' _ hexec
        injection hexec with h1 h2
        subst h2
        exact ⟨le_refl _, fun i _ _ => rfl, fun cc hcc => by rw [← h1] at hcc; cases hcc⟩
      · intro p cs st r st' _ hexec
        injection hexec with h1 h2
        subst h2
        exact ⟨le_refl _, fun i _ _ => rfl, fun cc hcc => by rw [← h1] at hcc; cases hcc⟩
      · intro p cs st r st' _ hexec
        injection hexec with h1 h2
        subst h2
        exact ⟨le_refl _, fun i _ _ => rfl⟩
      · intro elems cs st r st' _ hexec
        injection hexec with h1 h2
        subst h2
        exact ⟨le_refl _, fun i _ _ => rfl⟩
      · intro p inner reps cs results st r st' _ hexec
        injection hexec with h1 h2
        subst h2
        exact ⟨le_refl _, fun i _ _ _ => rfl⟩
      · intro inner reps cs st r st' _ hexec
        injection hexec with h1 h2
        subst h2
        exact ⟨le_refl _, fun i _ => rfl⟩
  | succ fuel ih =>
      obtain ⟨ihRP, ihRAT, ihGR, ihRE, ihRL, ihAL⟩ := ih
      have hRP : InvRP (fuel + 1) := by
        intro p cs st r st' hNC hexec
        rcases p with ⟨cfg, k⟩
        rcases k with _ | len | _ | ⟨rel, opt, elems⟩ | ⟨rel, opt, elems⟩ |
          ⟨inner, f⟩ | ⟨inner, qty⟩ | ⟨inner, qty⟩ <;>
          (rw [readP] at hexec; simp only [Parser.kind] at hexec)
        · -- byteP
          split at hexec <;>
            (injection hexec with h1 h2; subst h2; subst h1;
             exact inv_of_heap_eq rfl (fun cc hcc => nomatch hcc))
        · -- bytesP
          repeat' split at hexec
          all_goals
            (injection hexec with h1 h2; subst h2; subst h1;
             exact inv_of_heap_eq rfl (fun cc hcc => nomatch hcc))
        · -- failP
          injection hexec with h1 h2
          subst h2
          subst h1
          exact inv_of_heap_eq rfl (fun cc hcc => nomatch hcc)
        · -- block
          have hNCL : NoCtxTransL elems := hNC
          split at hexec
          next u st2 heq =>
            injection hexec with h1 h2
            subst h2
            subst h1
            obtain ⟨hsz, hpres⟩ := ihRE elems _ _ _ _ hNCL heq
            refine ⟨?_, ?_, fun cc hcc => nomatch hcc⟩
            · calc st.heap.frames.length
                  ≤ st.heap.frames.length + 1 := by omega
                _ ≤ st2.heap.frames.length := by
                    simpa [enterRegion, Heap.alloc] using hsz
            · intro i hi hw
              rw [exitCommit_heap]
              rw [hpres i (by simpa [enterRegion, Heap.alloc] using Nat.lt_succ_of_lt hi)
                (by
                  intro he
                  have : i = st.heap.frames.length := by
                    simpa [headFrame?] using he
                  omega)]
              exact Heap.getF_alloc_old st.heap i hi
          next e st2 heq =>
            obtain ⟨hsz, hpres⟩ := ihRE elems _ _ _ _ hNCL heq
            have hcore : SizeMono st st' ∧
                PreservedExcept st st' (headFrame? cs) ∧ st'.heap = st2.heap := by
              split at hexec <;>
                (injection hexec with h1 h2; subst h2;
                 refine ⟨?_, ?_, rfl⟩)
              · calc st.heap.frames.length
                    ≤ st.heap.frames.length + 1 := by omega
                  _ ≤ st2.heap.frames.length := by
                    simpa [enterRegion, Heap.alloc] using hsz
              · intro i hi hw
                rw [exitRevert_heap]
                rw [hpres i (by simpa [enterRegion, Heap.alloc] using Nat.lt_succ_of_lt hi)
                  (by
                    intro he
                    have : i = st.heap.frames.length := by
                      simpa [headFrame?] using he
                    omega)]
                exact Heap.getF_alloc_old st.heap i hi
              · calc st.heap.frames.length
                    ≤ st.heap.frames.length + 1 := by omega
                  _ ≤ st2.heap.frames.length := by
                    simpa [enterRegion, Heap.alloc] using hsz
              · intro i hi hw
                rw [exitCommit_heap]
                rw [hpres i (by simpa [enterRegion, Heap.alloc] using Nat.lt_succ_of_lt hi)
                  (by
                    intro he
                    have : i = st.heap.frames.length := by
                      simpa [headFrame?] using he
                    omega)]
                exact Heap.getF_alloc_old st.heap i hi
            refine ⟨hcore.1, hcore.2.1, fun cc hcc => ?_⟩
            exfalso
            revert hexec
            split <;>
              (intro hexec; injection hexec with h1 h2; rw [← h1] at hcc; cases hcc)
        · -- section
          have hNCL : NoCtxTransL elems := hNC
          rcases cs with _ | ⟨c, rest⟩
          · injection hexec with h1 h2
            subst h2
            subst h1
            exact inv_of_heap_eq rfl (fun cc hcc => nomatch hcc)
          · simp only [Ctx.newChild, Heap.alloc, enterRegion] at hexec
            split at hexec
            next u st2 heq =>
              injection hexec with h1 h2
              subst h2
              subst h1
              obtain ⟨hsz, hpres⟩ := ihRE elems _ _ _ _ hNCL heq
              refine ⟨?_, ?_, fun cc hcc => ?_⟩
              · calc st.heap.frames.length
                    ≤ st.heap.frames.length + 1 := by omega
                  _ ≤ st2.heap.frames.length := by
                      simpa [enterRegion, Heap.alloc] using hsz
              · intro i hi hw
                rw [exitCommit_heap]
                rw [hpres i (by simpa [enterRegion, Heap.alloc] using Nat.lt_succ_of_lt hi)
                  (by
                    intro he
                    have : i = st.heap.frames.length := by
                      simpa [headFrame?] using he
                    omega)]
                exact Heap.getF_alloc_old st.heap i hi
              · injection hcc with hcc'
                injection hcc' with hcc''
                refine ⟨st.heap.frames.length, by rw [← hcc'']; rfl, le_refl _, ?_⟩
                calc st.heap.frames.length
                    < st.heap.frames.length + 1 := by omega
                  _ ≤ st2.heap.frames.length := by
                      simpa [enterRegion, Heap.alloc] using hsz
            next e st2 heq =>
              obtain ⟨hsz, hpres⟩ := ihRE elems _ _ _ _ hNCL heq
              have hsz' : st.heap.frames.length + 1 ≤ st2.heap.frames.length := by
                simpa [enterRegion, Heap.alloc] using hsz
              have hpres' : ∀ i, i < st.heap.frames.length →
                  st2.heap.getF i = st.heap.getF i := by
                intro i hi
                rw [hpres i (by simpa [enterRegion, Heap.alloc] using Nat.lt_succ_of_lt hi)
                  (by
                    intro he
                    have : i = st.heap.frames.length := by
                      simpa [headFrame?] using he
                    omega)]
                exact Heap.getF_alloc_old st.heap i hi
              split at hexec <;>
                (injection hexec with h1 h2; subst h2; refine ⟨?_, ?_, ?_⟩) <;>
                first
                | exact le_trans (Nat.le_succ _) hsz'
                | (intro i hi hw
                   exact hpres' i hi)
                | (intro cc hcc
                   rw [← h1] at hcc
                   cases hcc)
        · -- translator
          exact ihRAT inner cs st r st' hNC.2 hexec
        · -- repeatP
          rcases qty with n | key <;> dsimp only at hexec
          · rcases cs with _ | ⟨c, rest⟩
            · injection hexec with h1 h2
              subst h2
              subst h1
              exact inv_of_heap_eq rfl (fun cc hcc => nomatch hcc)
            · simp only [Heap.alloc] at hexec
              split at hexec
              next u st2 heq =>
                injection hexec with h1 h2
                subst h2
                subst h1
                obtain ⟨hsz, hpres⟩ := ihRL _ inner _ _ _ _ _ _ hNC heq
                have hsz' : st.heap.frames.length + 1 ≤ st2.heap.frames.length := by
                  simpa using hsz
                refine ⟨by omega, ?_, fun cc hcc => ?_⟩
                · intro i hi hw
                  rw [hpres i (by simpa [enterRegion, Heap.alloc] using Nat.lt_succ_of_lt hi) hw
                    (by
                      intro he
                      have : i = st.heap.frames.length := by simpa using he
                      omega)]
                  exact Heap.getF_alloc_old st.heap i hi
                · injection hcc with hcc'
                  injection hcc' with hcc''
                  exact ⟨st.heap.frames.length, by rw [← hcc'']; rfl, le_refl _, by omega⟩
              next e st2 heq =>
                injection hexec with h1 h2
                subst h2
                obtain ⟨hsz, hpres⟩ := ihRL _ inner _ _ _ _ _ _ hNC heq
                have hsz' : st.heap.frames.length + 1 ≤ st2.heap.frames.length := by
                  simpa using hsz
                refine ⟨by omega, ?_, fun cc hcc => by rw [← h1] at hcc; cases hcc⟩
                intro i hi hw
                rw [hpres i (by simpa [enterRegion, Heap.alloc] using Nat.lt_succ_of_lt hi) hw
                  (by
                    intro he
                    have : i = st.heap.frames.length := by simpa using he
                    omega)]
                exact Heap.getF_alloc_old st.heap i hi
          · split at hexec <;>
              (injection hexec with h1 h2; subst h2; subst h1;
               exact inv_of_heap_eq rfl (fun cc hcc => nomatch hcc))
        · -- arrayP
          rcases qty with n | key <;> dsimp only at hexec
          · split at hexec
            next items st2 heq =>
              injection hexec with h1 h2
              subst h2
              subst h1
              obtain ⟨hsz, hpres⟩ := ihAL inner _ _ _ _ _ hNC heq
              exact ⟨hsz, fun i hi hw => hpres i hi, fun cc hcc => nomatch hcc⟩
            next e st2 heq =>
              injection hexec with h1 h2
              subst h2
              subst h1
              obtain ⟨hsz, hpres⟩ := ihAL inner _ _ _ _ _ hNC heq
              exact ⟨hsz, fun i hi hw => hpres i hi, fun cc hcc => nomatch hcc⟩
          · split at hexec <;>
              (injection hexec with h1 h2; subst h2; subst h1;
               exact inv_of_heap_eq rfl (fun cc hcc => nomatch hcc))
      have hRAT : InvRAT (fuel + 1) := by
        intro p cs st r st' hNC hexec
        rw [readAndTranslate] at hexec
        split at hexec
        next e st1 heq =>
          injection hexec with h1 h2
          subst h2
          subst h1
          obtain ⟨hsz, hpres, _⟩ := ihRP p cs st _ _ hNC heq
          exact ⟨hsz, hpres, fun cc hcc => nomatch hcc⟩
        next st1 heq =>
          injection hexec with h1 h2
          subst h2
          subst h1
          obtain ⟨hsz, hpres, _⟩ := ihRP p cs st _ _ hNC heq
          exact ⟨hsz, hpres, fun cc hcc => nomatch hcc⟩
        next r0 st1 hnr heq =>
          injection hexec with h1 h2
          subst h2
          subst h1
          obtain ⟨hsz, hpres, hctx⟩ := ihRP p cs st _ _ hNC heq
          refine ⟨hsz, hpres, fun cc hcc => ?_⟩
          injection hcc with hcc'
          rcases p with ⟨cfg, k⟩
          rcases k with _ | len | _ | ⟨rel, opt, elems⟩ | ⟨rel, opt, elems⟩ |
            ⟨inner, f⟩ | ⟨inner, qty⟩ | ⟨inner, qty⟩ <;>
            simp only [translateP, Parser.kind] at hcc'
          case translator =>
            exact absurd hcc' (hNC.1 r0 cc)
          all_goals exact hctx cc (by rw [hcc'])
      have hRE : InvRE (fuel + 1) := by
        intro elems cs st r st' hNCL hexec
        rcases elems with _ | ⟨e, rest'⟩
        · rw [readElems] at hexec
          injection hexec with h1 h2
          subst h2
          exact ⟨le_refl _, fun i _ _ => rfl⟩
        · rw [readElems] at hexec
          split at hexec
          next err st1 heq =>
            injection hexec with h1 h2
            subst h2
            exact ihGR e cs st _ _ hNCL.1 heq
          next u st1 heq =>
            obtain ⟨hsz1, hpres1⟩ := ihGR e cs st _ _ hNCL.1 heq
            obtain ⟨hsz2, hpres2⟩ := ihRE rest' cs st1 _ _ hNCL.2 hexec
            exact ⟨le_trans hsz1 hsz2, fun i hi hw =>
              (hpres2 i (lt_of_lt_of_le hi hsz1) hw).trans (hpres1 i hi hw)⟩
      have headFrame?_eq : ∀ cs : List Ctx, headFrame? cs = (headMaps cs).head? := by
        intro cs
        cases cs <;> rfl
      have hGR : InvGR (fuel + 1) := by
        intro p cs st r st' hNC hexec
        rcases cs with _ | ⟨c, rest⟩ <;> rw [gotoRead.eq_def] at hexec <;>
          dsimp only at hexec
        · injection hexec with h1 h2
          subst h2
          exact ⟨le_refl _, fun i _ _ => rfl⟩
        · have hspacer : ∀ (res0 : Except Err Unit) (st1 : St),
              (match p.cfg.address with
               | some a => spacer st c a
               | none => ((.ok ()), st)) = (res0, st1) →
              st1.heap.frames.length = st.heap.frames.length ∧
              ∀ j, some j ≠ c.maps.head? → st1.heap.getF j = st.heap.getF j := by
            intro res0 st1 h
            rcases ha : p.cfg.address with _ | a <;> rw [ha] at h <;>
              dsimp only at h
            · injection h with h1 h2
              subst h2
              exact ⟨rfl, fun j _ => rfl⟩
            · obtain ⟨hl, hp⟩ := spacer_heap st c a
              rw [h] at hl hp
              exact ⟨hl, hp⟩
          split at hexec
          next e st1 heq =>
            injection hexec with h1 h2
            subst h2
            obtain ⟨hl, hp⟩ := hspacer _ _ heq
            exact ⟨le_of_eq hl.symm, fun i hi hw => hp i hw⟩
          next u st1 heq =>
            obtain ⟨hl, hp⟩ := hspacer _ _ heq
            have hcomp : ∀ (st2 : St), SizeMono st1 st2 →
                PreservedExcept st1 st2 (headFrame? (c :: rest)) →
                SizeMono st st2 ∧
                ∀ i, i < st.heap.frames.length → some i ≠ headFrame? (c :: rest) →
                  st2.heap.getF i = st.heap.getF i := by
              intro st2 hsz hpres
              refine ⟨le_trans (le_of_eq hl.symm) hsz, fun i hi hw => ?_⟩
              rw [hpres i (by omega) hw]
              exact hp i hw
            split at hexec
            next e st2 heq2 =>
              injection hexec with h1 h2
              subst h2
              obtain ⟨hsz, hpres, _⟩ := ihRAT p _ st1 _ _ hNC heq2
              exact hcomp st2 hsz hpres
            next st2 heq2 =>
              injection hexec with h1 h2
              subst h2
              obtain ⟨hsz, hpres, _⟩ := ihRAT p _ st1 _ _ hNC heq2
              exact hcomp st2 hsz hpres
            next cc st2 heq2 =>
              obtain ⟨hsz, hpres, hctx⟩ := ihRAT p _ st1 _ _ hNC heq2
              obtain ⟨f, hfm, hfge, hflt⟩ := hctx cc rfl
              split at hexec
              next hupd =>
                injection hexec with h1 h2
                subst h2
                exact hcomp st2 hsz hpres
              next h' hupd =>
                injection hexec with h1 h2
                subst h2
                obtain ⟨hul, hup⟩ := updateExt_heap hupd
                obtain ⟨hsz2, hpres2⟩ := hcomp st2 hsz hpres
                refine ⟨le_trans hsz2 (le_of_eq ?_), fun i hi hw => ?_⟩
                · rw [show (⟨h', st2.mgr⟩ : St).heap = h' from rfl, hul]
                · rw [show (⟨h', st2.mgr⟩ : St).heap = h' from rfl]
                  rw [hup i ?_ ?_]
                  · exact hpres2 i hi hw
                  · rw [hfm]
                    simp only [List.head?_cons]
                    intro he
                    have : i = f := by
                      injection he
                    have hle : st.heap.frames.length ≤ st1.heap.frames.length :=
                      le_of_eq hl.symm
                    omega
                  · rw [hfm]
                    simp only [List.tail_cons]
                    rw [← headFrame?_eq (c :: rest)]
                    exact hw
            next st2 heq2 =>
              injection hexec with h1 h2
              subst h2
              obtain ⟨hsz, hpres, _⟩ := ihRAT p _ st1 _ _ hNC heq2
              exact hcomp st2 hsz hpres
            next st2 heq2 =>
              injection hexec with h1 h2
              subst h2
              obtain ⟨hsz, hpres, _⟩ := ihRAT p _ st1 _ _ hNC heq2
              exact hcomp st2 hsz hpres
            next v st2 heq2 =>
              obtain ⟨hsz, hpres, _⟩ := ihRAT p _ st1 _ _ hNC heq2
              obtain ⟨hsz2, hpres2⟩ := hcomp st2 hsz hpres
              obtain ⟨hsl, hsp⟩ := store_heap p c v (some st1.mgr.address) st2
              split at hexec
              next e st3 heq3 =>
                injection hexec with h1 h2
                subst h2
                rw [heq3] at hsl hsp
                exact ⟨le_trans hsz2 (le_of_eq hsl.symm), fun i hi hw => by
                  rw [hsp i (by rw [headFrame?_eq] at hw; exact hw)]
                  exact hpres2 i hi hw⟩
              next u3 st3 heq3 =>
                injection hexec with h1 h2
                subst h2
                rw [heq3] at hsl hsp
                exact ⟨le_trans hsz2 (le_of_eq hsl.symm), fun i hi hw => by
                  rw [hsp i (by rw [headFrame?_eq] at hw; exact hw)]
                  exact hpres2 i hi hw⟩
      have hRL : InvRL (fuel + 1) := by
        intro p inner reps cs results st r st' hNC hexec
        rcases reps with _ | reps
        · rw [repeatLoop] at hexec
          injection hexec with h1 h2
          subst h2
          exact ⟨le_refl _, fun i _ _ _ => rfl⟩
        · rw [repeatLoop] at hexec
          simp only [enterRegion, Heap.alloc, if_true] at hexec
          have hstep : ∀ (st3 : St) (rr : Except Err Unit) (stf : St),
              st.heap.frames.length + 1 ≤ st3.heap.frames.length →
              (∀ i, i < st.heap.frames.length → some i ≠ headFrame? cs →
                some i ≠ results.maps.head? → st3.heap.getF i = st.heap.getF i) →
              repeatLoop fuel p inner reps cs results (exitCommit st3 st.mgr.base)
                = (rr, stf) →
              SizeMono st stf ∧
              ∀ i, i < st.heap.frames.length → some i ≠ headFrame? cs →
                some i ≠ results.maps.head? → stf.heap.getF i = st.heap.getF i := by
            intro st3 rr stf hsz3 hp3 hrec
            obtain ⟨hsz4, hp4⟩ := ihRL p inner reps cs results _ _ _ hNC hrec
            have hsz4' : st3.heap.frames.length ≤ stf.heap.frames.length := hsz4
            refine ⟨le_trans (by omega) hsz4', fun i hi hw hr => ?_⟩
            have hp4' : stf.heap.getF i = st3.heap.getF i :=
              hp4 i (show i < st3.heap.frames.length by omega) hw hr
            rw [hp4']
            exact hp3 i hi hw hr
          split at hexec
          next e st2 heq =>
            injection hexec with h1 h2
            subst h2
            obtain ⟨hsz, hpres, _⟩ := ihRAT inner cs _ _ _ hNC heq
            have hsz' : st.heap.frames.length + 1 ≤ st2.heap.frames.length := by
              simpa using hsz
            refine ⟨show st.heap.frames.length ≤ st2.heap.frames.length by omega,
              fun i hi hw hr => ?_⟩
            show st2.heap.getF i = st.heap.getF i
            rw [hpres i (by simpa using Nat.lt_succ_of_lt hi) hw]
            exact Heap.getF_alloc_old st.heap i hi
          next st2 heq =>
            obtain ⟨hsz, hpres, _⟩ := ihRAT inner cs _ _ _ hNC heq
            have hsz' : st.heap.frames.length + 1 ≤ st2.heap.frames.length := by
              simpa using hsz
            exact hstep st2 _ _ hsz' (fun i hi hw hr => by
              rw [hpres i (by simpa using Nat.lt_succ_of_lt hi) hw]
              exact Heap.getF_alloc_old st.heap i hi) hexec
          next r0 st2 hnr heq =>
            obtain ⟨hsz, hpres, hctx⟩ := ihRAT inner cs _ _ _ hNC heq
            have hsz' : st.heap.frames.length + 1 ≤ st2.heap.frames.length := by
              simpa using hsz
            have hIter : ∀ i, i < st.heap.frames.length → some i ≠ headFrame? cs →
                st2.heap.getF i = st.heap.getF i := by
              intro i hi hw
              rw [hpres i (by simpa using Nat.lt_succ_of_lt hi) hw]
              exact Heap.getF_alloc_old st.heap i hi
            rcases r0 with _ | _ | _ | cc | v <;> dsimp only at hexec
            · -- rev (already matched by arm 2, unreachable but harmless)
              exact absurd rfl hnr
            · -- succ: store then promote then recurse
              obtain ⟨hsl, hsp⟩ := store_heap p ⟨st.heap.frames.length :: results.maps⟩
                .vSuccess (some (Mgr.address ⟨st.mgr.data, st.mgr.pos, st.mgr.pos⟩)) st2
              split at hexec
              next e3 st3 heq3 =>
                injection hexec with h1 h2
                subst h2
                rw [heq3] at hsl hsp
                dsimp only at hsl hsp
                refine ⟨show st.heap.frames.length ≤ st3.heap.frames.length by omega,
                  fun i hi hw hr => ?_⟩
                show st3.heap.getF i = st.heap.getF i
                rw [hsp i (by
                  show some i ≠ some st.heap.frames.length
                  intro he
                  have : i = st.heap.frames.length := by injection he
                  omega)]
                exact hIter i hi hw
              next u3 st3 heq3 =>
                rw [heq3] at hsl hsp
                dsimp only at hsl hsp
                have hfacts3 : st.heap.frames.length + 1 ≤ st3.heap.frames.length ∧
                    ∀ i, i < st.heap.frames.length → some i ≠ headFrame? cs →
                      some i ≠ results.maps.head? →
                      st3.heap.getF i = st.heap.getF i := by
                  refine ⟨by omega, fun i hi hw hr => ?_⟩
                  rw [hsp i (by
                    show some i ≠ some st.heap.frames.length
                    intro he
                    have : i = st.heap.frames.length := by injection he
                    omega)]
                  exact hIter i hi hw
                split at hexec
                next hupd =>
                  injection hexec with h1 h2
                  subst h2
                  refine ⟨show st.heap.frames.length ≤ st3.heap.frames.length by
                    have := hfacts3.1
                    omega, fun i hi hw hr => ?_⟩
                  show st3.heap.getF i = st.heap.getF i
                  exact hfacts3.2 i hi hw hr
                next h4 hupd =>
                  obtain ⟨hul, hup⟩ := updateExt_heap hupd
                  apply hstep ⟨h4, st3.mgr⟩ _ _ (by
                    show st.heap.frames.length + 1 ≤ h4.frames.length
                    rw [hul]
                    exact hfacts3.1) (fun i hi hw hr => by
                    show Heap.getF h4 i = st.heap.getF i
                    rw [hup i (by
                      show some i ≠ some st.heap.frames.length
                      intro he
                      have : i = st.heap.frames.length := by injection he
                      omega) (by
                      show some i ≠ results.maps.head?
                      exact hr)]
                    exact hfacts3.2 i hi hw hr) hexec
            · -- none_: no store, promote then recurse
              split at hexec
              next hupd =>
                injection hexec with h1 h2
                subst h2
                refine ⟨show st.heap.frames.length ≤ st2.heap.frames.length by omega,
                  fun i hi hw hr => ?_⟩
                show st2.heap.getF i = st.heap.getF i
                exact hIter i hi hw
              next h4 hupd =>
                obtain ⟨hul, hup⟩ := updateExt_heap hupd
                apply hstep ⟨h4, st2.mgr⟩ _ _ (by
                  show st.heap.frames.length + 1 ≤ h4.frames.length
                  rw [hul]
                  omega) (fun i hi hw hr => by
                  show Heap.getF h4 i = st.heap.getF i
                  rw [hup i (by
                    show some i ≠ some st.heap.frames.length
                    intro he
                    have : i = st.heap.frames.length := by injection he
                    omega) (by
                    show some i ≠ results.maps.head?
                    exact hr)]
                  exact hIter i hi hw) hexec
            · -- ctx cc: merge outward, then promote, then recurse
              obtain ⟨f, hfm, hfge, hflt⟩ := hctx cc rfl
              have hfge' : st.heap.frames.length + 1 ≤ f := by
                simpa using hfge
              rcases hupd : Ctx.updateExt st2.heap cc with _ | h3
              · rw [hupd] at hexec
                dsimp only at hexec
                injection hexec with h1 h2
                subst h2
                refine ⟨show st.heap.frames.length ≤ st2.heap.frames.length by omega,
                  fun i hi hw hr => ?_⟩
                show st2.heap.getF i = st.heap.getF i
                exact hIter i hi hw
              · rw [hupd] at hexec
                dsimp only at hexec
                obtain ⟨hul3, hup3⟩ := updateExt_heap hupd
                have hfacts3 : st.heap.frames.length + 1 ≤ h3.frames.length ∧
                    ∀ i, i < st.heap.frames.length → some i ≠ headFrame? cs →
                      Heap.getF h3 i = st.heap.getF i := by
                  refine ⟨by rw [hul3]; omega, fun i hi hw => ?_⟩
                  rw [hup3 i (by
                    rw [hfm]
                    show some i ≠ some f
                    intro he
                    have : i = f := by injection he
                    omega) (by
                    rw [hfm]
                    show some i ≠ (headMaps cs).head?
                    rw [← headFrame?_eq cs]
                    exact hw)]
                  exact hIter i hi hw
                split at hexec
                next hupd2 =>
                  injection hexec with h1 h2
                  subst h2
                  refine ⟨show st.heap.frames.length ≤ h3.frames.length by
                    have := hfacts3.1
                    omega, fun i hi hw hr => ?_⟩
                  show Heap.getF h3 i = st.heap.getF i
                  exact hfacts3.2 i hi hw
                next h4 hupd2 =>
                  obtain ⟨hul4, hup4⟩ := updateExt_heap hupd2
                  apply hstep ⟨h4, st2.mgr⟩ _ _ (by
                    show st.heap.frames.length + 1 ≤ h4.frames.length
                    rw [hul4]
                    exact hfacts3.1) (fun i hi hw hr => by
                    show Heap.getF h4 i = st.heap.getF i
                    rw [hup4 i (by
                      show some i ≠ some st.heap.frames.length
                      intro he
                      have : i = st.heap.frames.length := by injection he
                      omega) (by
                      show some i ≠ results.maps.head?
                      exact hr)]
                    exact hfacts3.2 i hi hw) hexec
            · -- val v: store then promote then recurse
              obtain ⟨hsl, hsp⟩ := store_heap p ⟨st.heap.frames.length :: results.maps⟩
                v (some (Mgr.address ⟨st.mgr.data, st.mgr.pos, st.mgr.pos⟩)) st2
              split at hexec
              next e3 st3 heq3 =>
                injection hexec with h1 h2
                subst h2
                rw [heq3] at hsl hsp
                dsimp only at hsl hsp
                refine ⟨show st.heap.frames.length ≤ st3.heap.frames.length by omega,
                  fun i hi hw hr => ?_⟩
                show st3.heap.getF i = st.heap.getF i
                rw [hsp i (by
                  show some i ≠ some st.heap.frames.length
                  intro he
                  have : i = st.heap.frames.length := by injection he
                  omega)]
                exact hIter i hi hw
              next u3 st3 heq3 =>
                rw [heq3] at hsl hsp
                dsimp only at hsl hsp
                have hfacts3 : st.heap.frames.length + 1 ≤ st3.heap.frames.length ∧
                    ∀ i, i < st.heap.frames.length → some i ≠ headFrame? cs →
                      some i ≠ results.maps.head? →
                      st3.heap.getF i = st.heap.getF i := by
                  refine ⟨by omega, fun i hi hw hr => ?_⟩
                  rw [hsp i (by
                    show some i ≠ some st.heap.frames.length
                    intro he
                    have : i = st.heap.frames.length := by injection he
                    omega)]
                  exact hIter i hi hw
                split at hexec
                next hupd =>
                  injection hexec with h1 h2
                  subst h2
                  refine ⟨show st.heap.frames.length ≤ st3.heap.frames.length by
                    have := hfacts3.1
                    omega, fun i hi hw hr => ?_⟩
                  show st3.heap.getF i = st.heap.getF i
                  exact hfacts3.2 i hi hw hr
                next h4 hupd =>
                  obtain ⟨hul, hup⟩ := updateExt_heap hupd
                  apply hstep ⟨h4, st3.mgr⟩ _ _ (by
                    show st.heap.frames.length + 1 ≤ h4.frames.length
                    rw [hul]
                    exact hfacts3.1) (fun i hi hw hr => by
                    show Heap.getF h4 i = st.heap.getF i
                    rw [hup i (by
                      show some i ≠ some st.heap.frames.length
                      intro he
                      have : i = st.heap.frames.length := by injection he
                      omega) (by
                      show some i ≠ results.maps.head?
                      exact hr)]
                    exact hfacts3.2 i hi hw hr) hexec
      have hAL : InvAL (fuel + 1) := by
        intro inner reps cs st r st' hNC hexec
        rcases reps with _ | reps
        · rw [arrayLoop] at hexec
          injection hexec with h1 h2
          subst h2
          exact ⟨le_refl _, fun i _ => rfl⟩
        · rw [arrayLoop] at hexec
          simp only [enterRegion, Heap.alloc, if_true] at hexec
          split at hexec
          next e st2 heq =>
            injection hexec with h1 h2
            subst h2
            obtain ⟨hsz, hpres, _⟩ :=
              ihRAT inner (⟨[st.heap.frames.length]⟩ :: cs.tail) _ _ _ hNC heq
            have hsz' : st.heap.frames.length + 1 ≤ st2.heap.frames.length := by
              simpa using hsz
            refine ⟨show st.heap.frames.length ≤ st2.heap.frames.length by omega,
              fun i hi => ?_⟩
            show st2.heap.getF i = st.heap.getF i
            rw [hpres i (by simpa using Nat.lt_succ_of_lt hi) (by
              show some i ≠ some st.heap.frames.length
              intro he
              have : i = st.heap.frames.length := by injection he
              omega)]
            exact Heap.getF_alloc_old st.heap i hi
          next r0 st2 heq =>
            obtain ⟨hsz, hpres, _⟩ :=
              ihRAT inner (⟨[st.heap.frames.length]⟩ :: cs.tail) _ _ _ hNC heq
            have hsz' : st.heap.frames.length + 1 ≤ st2.heap.frames.length := by
              simpa using hsz
            have hIter : ∀ i, i < st.heap.frames.length →
                st2.heap.getF i = st.heap.getF i := by
              intro i hi
              rw [hpres i (by simpa using Nat.lt_succ_of_lt hi) (by
                show some i ≠ some st.heap.frames.length
                intro he
                have : i = st.heap.frames.length := by injection he
                omega)]
              exact Heap.getF_alloc_old st.heap i hi
            split at hexec
            next restItems st4 heq4 =>
              injection hexec with h1 h2
              subst h2
              obtain ⟨hsz4, hp4⟩ := ihAL inner reps cs _ _ _ hNC heq4
              have hsz4' : st2.heap.frames.length ≤ st4.heap.frames.length := hsz4
              refine ⟨show st.heap.frames.length ≤ st4.heap.frames.length by omega,
                fun i hi => ?_⟩
              have hp4' : st4.heap.getF i = st2.heap.getF i :=
                hp4 i (show i < st2.heap.frames.length by omega)
              rw [hp4']
              exact hIter i hi
            next e st4 heq4 =>
              injection hexec with h1 h2
              subst h2
              obtain ⟨hsz4, hp4⟩ := ihAL inner reps cs _ _ _ hNC heq4
              have hsz4' : st2.heap.frames.length ≤ st4.heap.frames.length := hsz4
              refine ⟨show st.heap.frames.length ≤ st4.heap.frames.length by omega,
                fun i hi => ?_⟩
              have hp4' : st4.heap.getF i = st2.heap.getF i :=
                hp4 i (show i < st2.heap.frames.length by omega)
              rw [hp4']
              exact hIter i hi
      exact ⟨hRP, hRAT, hGR, hRE, hRL, hAL⟩

/-- C4: for an optional `Block` or `Section` whose child elements fail with a
parse error, `read` returns the `Reverted` sentinel, the cursor position and
region base are restored to their pre-read values, every pre-existing heap
frame — hence every key of every surrounding context — is bit-identical to
before the attempt, and the caller (`goto_addr_and_read`) passes the sentinel
through, storing nothing.  (The translator functions in scope are assumed
never to fabricate a `Context` result, which Python value translators cannot
do.) -/
theorem c4_optional_revert_clean (fuel : Nat) (rel : Bool) (elems : List Parser)
    (cfg : PCfg) (k : PKind) (c : Ctx) (rest : List Ctx) (st : St)
    (r : Except Err RRes) (st₂ : St)
    (hA : cfg.address = none) (hNC : NoCtxTransL elems)
    (hcase : (k = .block rel true elems ∧
        (blockChildRun fuel rel elems (c :: rest) st).1 = .error .parseErr) ∨
      (k = .section rel true elems ∧
        (sectionChildRun fuel rel elems c rest st).1 = .error .parseErr))
    (hexec : readP (fuel + 1) ⟨cfg, k⟩ (c :: rest) st = (r, st₂)) :
    r = .ok .rev ∧
    st₂.mgr.pos = st.mgr.pos ∧
    st₂.mgr.base = st.mgr.base ∧
    (∀ i, i < st.heap.frames.length → st₂.heap.getF i = st.heap.getF i) ∧
    gotoRead (fuel + 3) ⟨cfg, k⟩ (c :: rest) st = (.ok .rev, st₂) := by
  rcases hcase with ⟨hk, hfail⟩ | ⟨hk, hfail⟩
  · subst hk
    have hrun : blockChildRun fuel rel elems (c :: rest) st
        = (.error .parseErr, (blockChildRun fuel rel elems (c :: rest) st).2) := by
      rw [← hfail]
    rw [blockChildRun] at hrun
    have hre : readP (fuel + 1) ⟨cfg, .block rel true elems⟩ (c :: rest) st
        = (.ok .rev,
            exitRevert (blockChildRun fuel rel elems (c :: rest) st).2
              st.mgr.base st.mgr.pos) := by
      rw [readP]
      simp only [Parser.kind]
      rw [show ((enterRegion st rel).1.heap.alloc).2
          = (enterRegion st rel).1.heap.frames.length from rfl]
      rw [hrun]
      dsimp only
      rw [if_pos (show True ∧ Err.parseErr = Err.parseErr from ⟨trivial, rfl⟩)]
      rfl
    rw [hre] at hexec
    injection hexec with h1 h2
    subst h2
    subst h1
    refine ⟨rfl, rfl, rfl, ?_, ?_⟩
    · obtain ⟨_, _, _, hRE, _, _⟩ := engineInv fuel
      obtain ⟨_, hpres⟩ := hRE elems _ _ _ _ hNC hrun
      intro i hi
      show (blockChildRun fuel rel elems (c :: rest) st).2.heap.getF i
        = st.heap.getF i
      have hp := hpres i (show i < (st.heap.frames ++ [[]]).length by
          simp only [List.length_append, List.length_cons, List.length_nil]
          omega)
        (show some i ≠ some st.heap.frames.length by
          intro he
          have : i = st.heap.frames.length := by injection he
          omega)
      exact hp.trans (Heap.getF_alloc_old st.heap i hi)
    · apply gotoRead_rev (fuel + 2) ⟨cfg, .block rel true elems⟩ c rest st _ hA
      rw [readAndTranslate]
      rw [hre]
  · subst hk
    have hrun : sectionChildRun fuel rel elems c rest st
        = (.error .parseErr, (sectionChildRun fuel rel elems c rest st).2) := by
      rw [← hfail]
    rw [sectionChildRun] at hrun
    have hre : readP (fuel + 1) ⟨cfg, .section rel true elems⟩ (c :: rest) st
        = (.ok .rev,
            exitRevert (sectionChildRun fuel rel elems c rest st).2
              st.mgr.base st.mgr.pos) := by
      rw [readP]
      simp only [Parser.kind]
      rw [hrun]
      dsimp only
      rw [if_pos (show True ∧ Err.parseErr = Err.parseErr from ⟨trivial, rfl⟩)]
      rfl
    rw [hre] at hexec
    injection hexec with h1 h2
    subst h2
    subst h1
    refine ⟨rfl, rfl, rfl, ?_, ?_⟩
    · obtain ⟨_, _, _, hRE, _, _⟩ := engineInv fuel
      obtain ⟨_, hpres⟩ := hRE elems _ _ _ _ hNC hrun
      intro i hi
      show (sectionChildRun fuel rel elems c rest st).2.heap.getF i
        = st.heap.getF i
      have hp := hpres i (show i < (st.heap.frames ++ [[]]).length by
          simp only [List.length_append, List.length_cons, List.length_nil]
          omega)
        (show some i ≠ some st.heap.frames.length by
          intro he
          have : i = st.heap.frames.length := by injection he
          omega)
      exact hp.trans (Heap.getF_alloc_old st.heap i hi)
    · apply gotoRead_rev (fuel + 2) ⟨cfg, .section rel true elems⟩ c rest st _ hA
      rw [readAndTranslate]
      rw [hre]

/-- Closed witness for C4: an `Optional` section holding the always-failing
`Failure` parser over the two-byte input `[65, 66]`, with the surrounding
root frame already holding key `"k"`: the read reverts, the cursor stays at
0, frame 0 is untouched, and `goto_addr_and_read` stores nothing. -/
theorem c4_optional_revert_clean_witness :
    ((readP 7 (mkOptional [mkFailure] true .PARENT) [⟨[0]⟩]
        ⟨⟨[[("k", .vInt 7)]]⟩, ⟨[65, 66], 0, 0⟩⟩).1 = .ok .rev) ∧
    ((readP 7 (mkOptional [mkFailure] true .PARENT) [⟨[0]⟩]
        ⟨⟨[[("k", .vInt 7)]]⟩, ⟨[65, 66], 0, 0⟩⟩).2.mgr.pos = 0) ∧
    (∀ i, i < 1 →
      (readP 7 (mkOptional [mkFailure] true .PARENT) [⟨[0]⟩]
        ⟨⟨[[("k", .vInt 7)]]⟩, ⟨[65, 66], 0, 0⟩⟩).2.heap.getF i
        = Heap.getF ⟨[[("k", .vInt 7)]]⟩ i) ∧
    gotoRead 9 (mkOptional [mkFailure] true .PARENT) [⟨[0]⟩]
        ⟨⟨[[("k", .vInt 7)]]⟩, ⟨[65, 66], 0, 0⟩⟩
      = (.ok .rev,
          (readP 7 (mkOptional [mkFailure] true .PARENT) [⟨[0]⟩]
            ⟨⟨[[("k", .vInt 7)]]⟩, ⟨[65, 66], 0, 0⟩⟩).2) := by
  obtain ⟨h1, h2, h3, h4, h5⟩ :=
    c4_optional_revert_clean 6 true [mkFailure]
      ⟨none, none, .PARENT, some "Section"⟩ (.section true true [mkFailure])
      ⟨[0]⟩ [] ⟨⟨[[("k", .vInt 7)]]⟩, ⟨[65, 66], 0, 0⟩⟩
      (readP 7 (mkOptional [mkFailure] true .PARENT) [⟨[0]⟩]
        ⟨⟨[[("k", .vInt 7)]]⟩, ⟨[65, 66], 0, 0⟩⟩).1
      (readP 7 (mkOptional [mkFailure] true .PARENT) [⟨[0]⟩]
        ⟨⟨[[("k", .vInt 7)]]⟩, ⟨[65, 66], 0, 0⟩⟩).2
      rfl ⟨trivial, trivial⟩ (Or.inr ⟨rfl, by rfl⟩) rfl
  exact ⟨h1, h2, fun i hi => h4 i hi, h5⟩

/-- C2 (amended): a `Section` does keep its accumulated entries as a child
scope chained onto the caller's context — its successful result is the
context `⟨fresh frame :: caller chain⟩`, through which every key of the
caller stays visible — but its label is ignored: the caller always promotes
the returned context into its own innermost frame by a plain `dict.update`
(flattening), stores nothing under the label, and the whole `Section.read`
is literally independent of the label field. -/
theorem c2_section_always_flattens :
    (∀ (fuel : Nat) (cfg : PCfg) (rel opt : Bool) (elems : List Parser)
        (c : Ctx) (rest : List Ctx) (st : St) (r : Except Err RRes) (st₂ : St),
      readP (fuel + 1) ⟨cfg, .section rel opt elems⟩ (c :: rest) st = (r, st₂) →
      (∃ e, r = .error e) ∨ r = .ok .rev ∨
        r = .ok (.ctx ⟨st.heap.frames.length :: c.maps⟩)) ∧
    (∀ (h : Heap) (c : Ctx) (i : Nat) (k : String),
      Ctx.containsKey h c k = true →
      Ctx.containsKey h ⟨i :: c.maps⟩ k = true) ∧
    (∀ (fuel : Nat) (cfg : PCfg) (rel opt : Bool) (elems : List Parser)
        (c : Ctx) (rest : List Ctx) (st st₂ : St) (cc : Ctx) (f i1 : Nat)
        (rest' : List Nat),
      cfg.address = none → cc.maps = f :: i1 :: rest' → f ≠ i1 →
      f < st₂.heap.frames.length → i1 < st₂.heap.frames.length →
      readAndTranslate fuel ⟨cfg, .section rel opt elems⟩ (c :: rest) st
        = (.ok (.ctx cc), st₂) →
      ∃ h', gotoRead (fuel + 1) ⟨cfg, .section rel opt elems⟩ (c :: rest) st
          = (.ok .succ, ⟨h', st₂.mgr⟩) ∧
        h'.getF i1 = (st₂.heap.getF i1).update (st₂.heap.getF f) ∧
        h'.getF f = [] ∧
        (∀ j, j ≠ f → j ≠ i1 → h'.getF j = st₂.heap.getF j)) ∧
    (∀ (fuel : Nat) (cfg : PCfg) (l' : Option String) (rel opt : Bool)
        (elems : List Parser) (cs : List Ctx) (st : St),
      readP fuel ⟨cfg, .section rel opt elems⟩ cs st
        = readP fuel ⟨⟨l', cfg.address, cfg.addrType, cfg.backupLabel⟩,
            .section rel opt elems⟩ cs st) := by
  refine ⟨?_, ?_, ?_, ?_⟩
  · intro fuel cfg rel opt elems c rest st r st₂ hexec
    rw [readP] at hexec
    simp only [Parser.kind] at hexec
    rcases hE : readElems fuel elems
        ((Ctx.newChild (enterRegion st rel).1.heap c).2 :: rest)
        ⟨(Ctx.newChild (enterRegion st rel).1.heap c).1, (enterRegion st rel).1.mgr⟩
      with ⟨res, stE⟩
    rw [hE] at hexec
    rcases res with e | u
    · dsimp only at hexec
      by_cases hopt : opt ∧ e = .parseErr
      · rw [if_pos (by simpa using hopt)] at hexec
        injection hexec with h1 h2
        exact Or.inr (Or.inl h1.symm)
      · rw [if_neg (by simpa using hopt)] at hexec
        injection hexec with h1 h2
        exact Or.inl ⟨e, h1.symm⟩
    · dsimp only at hexec
      injection hexec with h1 h2
      refine Or.inr (Or.inr ?_)
      rw [← h1]
      rfl
  · intro h c i k hk
    unfold Ctx.containsKey at hk ⊢
    rw [List.any_cons, hk]
    simp
  · intro fuel cfg rel opt elems c rest st st₂ cc f i1 rest' hA hm hne hf hi1 hRAT
    obtain ⟨h', hu, hflat, hclear, hrest, _⟩ :=
      updateExt_spec st₂.heap cc f i1 rest' hm hne hf hi1
    refine ⟨h', ?_, hflat, hclear, hrest⟩
    rw [gotoRead_ctx fuel ⟨cfg, .section rel opt elems⟩ c rest st st₂ cc hA hRAT, hu]
  · intro fuel cfg l' rel opt elems cs st
    cases fuel <;> rfl

/-- Closed witness for C2: the labeled section `Section(Byte >> "f") >> "s"`
over `[65, 66]`, called with a caller frame already holding `"p"`: the read
returns the chained child context, and the caller flattens it — the caller
frame ends as `{p, f}`, the child frame is emptied, and no `"s"` entry
exists anywhere. -/
theorem c2_section_always_flattens_witness :
    (readAndTranslate 8
        (withLabel (mkSection [withLabel mkByte "f"] true .PARENT false) "s")
        [⟨[0]⟩] ⟨⟨[[("p", .vInt 1)]]⟩, ⟨[65, 66], 0, 0⟩⟩).1
      = .ok (.ctx ⟨[1, 0]⟩) ∧
    ∃ h', gotoRead 9
        (withLabel (mkSection [withLabel mkByte "f"] true .PARENT false) "s")
        [⟨[0]⟩] ⟨⟨[[("p", .vInt 1)]]⟩, ⟨[65, 66], 0, 0⟩⟩
      = (.ok .succ,
          ⟨h', (readAndTranslate 8
            (withLabel (mkSection [withLabel mkByte "f"] true .PARENT false) "s")
            [⟨[0]⟩] ⟨⟨[[("p", .vInt 1)]]⟩, ⟨[65, 66], 0, 0⟩⟩).2.mgr⟩) ∧
        h'.getF 0 = [("p", .vInt 1), ("f", .vBytes [65])] ∧
        h'.getF 1 = [] := by
  obtain ⟨h', hg, hflat, hclear, _⟩ :=
    c2_section_always_flattens.2.2.1 8
      ⟨some "s", none, .PARENT, some "Section"⟩ true false
      [withLabel mkByte "f"] ⟨[0]⟩ []
      ⟨⟨[[("p", .vInt 1)]]⟩, ⟨[65, 66], 0, 0⟩⟩
      (readAndTranslate 8
        (withLabel (mkSection [withLabel mkByte "f"] true .PARENT false) "s")
        [⟨[0]⟩] ⟨⟨[[("p", .vInt 1)]]⟩, ⟨[65, 66], 0, 0⟩⟩).2
      ⟨[1, 0]⟩ 1 0 [] rfl rfl (by decide) (by decide) (by decide) (by rfl)
  exact ⟨rfl, h', hg, hflat.trans (by rfl), hclear⟩

theorem reduceOption_length_facts {α : Type} (l : List (Option α)) :
    l.reduceOption.length ≤ l.length ∧
    ((∀ s ∈ l, s ≠ none) → l.reduceOption.length = l.length) := by
  induction l with
  | nil => exact ⟨le_refl _, fun _ => rfl⟩
  | cons a t ih =>
      rcases a with _ | v
      · refine ⟨?_, fun hall => ?_⟩
        · rw [List.reduceOption_cons_of_none, List.length_cons]
          have := ih.1
          omega
        · exact absurd rfl (hall none (by simp))
      · refine ⟨?_, fun hall => ?_⟩
        · rw [List.reduceOption_cons_of_some, List.length_cons, List.length_cons]
          have := ih.1
          omega
        · rw [List.reduceOption_cons_of_some, List.length_cons, List.length_cons]
          rw [ih.2 (fun s hs => hall s (by simp [hs]))]

/-- `arrayLoop` and its instrumented mirror `arrayTrace` run in lockstep:
on success the trace has one slot per requested iteration and the returned
items are exactly the trace with its `none` slots dropped. -/
theorem arrayLoop_trace : ∀ (fuel : Nat) (inner : Parser) (reps : Nat)
    (cs : List Ctx) (st : St) (items : List Value) (st' : St),
    arrayLoop fuel inner reps cs st = (.ok items, st') →
    ∃ tr, arrayTrace fuel inner reps cs st = (.ok tr, st') ∧
      tr.length = reps ∧ items = tr.reduceOption := by
  intro fuel
  induction fuel with
  | zero =>
      intro inner reps cs st items st' hexec
      rw [arrayLoop] at hexec
      injection hexec with h1 h2
      injection h1
  | succ fuel ih =>
      intro inner reps cs st items st' hexec
      rcases reps with _ | reps
      · rw [arrayLoop] at hexec
        injection hexec with h1 h2
        injection h1 with h1'
        subst h2
        subst h1'
        exact ⟨[], by rw [arrayTrace], rfl, rfl⟩
      · rw [arrayLoop] at hexec
        simp only [enterRegion, Heap.alloc, if_true] at hexec
        split at hexec
        next e st2 heq =>
          injection hexec with h1 h2
          injection h1
        next r0 st2 heq =>
          rcases r0 with _ | _ | _ | cc | v <;> dsimp only at hexec
          · -- rev
            split at hexec
            next restItems st4 heq4 =>
              injection hexec with h1 h2
              subst h2
              injection h1 with h1'
              subst h1'
              obtain ⟨tr, htr, hlen, hit⟩ := ih inner reps cs _ restItems st4 heq4
              refine ⟨some (.vList []) :: tr, ?_, by simp [hlen], ?_⟩
              · rw [arrayTrace]
                simp only [enterRegion, Heap.alloc, if_true]
                rw [heq]
                dsimp only
                rw [htr]
              · rw [List.reduceOption_cons_of_some, ← hit]
                rfl
            next e st4 heq4 =>
              injection hexec with h1 h2
              injection h1
          · -- succ
            split at hexec
            next restItems st4 heq4 =>
              injection hexec with h1 h2
              subst h2
              injection h1 with h1'
              subst h1'
              obtain ⟨tr, htr, hlen, hit⟩ := ih inner reps cs _ restItems st4 heq4
              refine ⟨some .vSuccess :: tr, ?_, by simp [hlen], ?_⟩
              · rw [arrayTrace]
                simp only [enterRegion, Heap.alloc, if_true]
                rw [heq]
                dsimp only
                rw [htr]
              · rw [List.reduceOption_cons_of_some, ← hit]
                rfl
            next e st4 heq4 =>
              injection hexec with h1 h2
              injection h1
          · -- none_
            split at hexec
            next restItems st4 heq4 =>
              injection hexec with h1 h2
              subst h2
              injection h1 with h1'
              subst h1'
              obtain ⟨tr, htr, hlen, hit⟩ := ih inner reps cs _ restItems st4 heq4
              refine ⟨none :: tr, ?_, by simp [hlen], ?_⟩
              · rw [arrayTrace]
                simp only [enterRegion, Heap.alloc, if_true]
                rw [heq]
                dsimp only
                rw [htr]
              · rw [List.reduceOption_cons_of_none, ← hit]
                rfl
            next e st4 heq4 =>
              injection hexec with h1 h2
              injection h1
          · -- ctx cc
            split at hexec
            next restItems st4 heq4 =>
              injection hexec with h1 h2
              subst h2
              injection h1 with h1'
              subst h1'
              obtain ⟨tr, htr, hlen, hit⟩ := ih inner reps cs _ restItems st4 heq4
              refine ⟨some (.vDict (Ctx.snapshot st2.heap cc)) :: tr, ?_,
                by simp [hlen], ?_⟩
              · rw [arrayTrace]
                simp only [enterRegion, Heap.alloc, if_true]
                rw [heq]
                dsimp only
                rw [htr]
              · rw [List.reduceOption_cons_of_some, ← hit]
                rfl
            next e st4 heq4 =>
              injection hexec with h1 h2
              injection h1
          · -- val v
            split at hexec
            next restItems st4 heq4 =>
              injection hexec with h1 h2
              subst h2
              injection h1 with h1'
              subst h1'
              obtain ⟨tr, htr, hlen, hit⟩ := ih inner reps cs _ restItems st4 heq4
              refine ⟨some v :: tr, ?_, by simp [hlen], ?_⟩
              · rw [arrayTrace]
                simp only [enterRegion, Heap.alloc, if_true]
                rw [heq]
                dsimp only
                rw [htr]
              · rw [List.reduceOption_cons_of_some, ← hit]
                rfl
            next e st4 heq4 =>
              injection hexec with h1 h2
              injection h1

/-- C8 (amended): the iteration-by-iteration trace of a successful
`Array(parser, count)` read has length exactly `count`, with a reverted
iteration contributing the empty-list placeholder, a returned context its
`dict` snapshot, and a plain result its value — but an iteration whose read
returns `None` contributes nothing at all: the returned sequence is the
trace with `none` slots dropped, so its length is only ≤ `count`, with
equality exactly on reads where no iteration returned `None` (the spec's
"length exactly count" fails otherwise, and later slots shift left). -/
theorem c8_array_slots (fuel : Nat) (inner : Parser) (reps : Nat)
    (cs : List Ctx) (st : St) (items : List Value) (st' : St)
    (hexec : arrayLoop fuel inner reps cs st = (.ok items, st')) :
    ∃ tr, arrayTrace fuel inner reps cs st = (.ok tr, st') ∧
      tr.length = reps ∧ items = tr.reduceOption ∧
      items.length ≤ reps ∧
      ((∀ s ∈ tr, s ≠ none) → items.length = reps) := by
  obtain ⟨tr, h1, h2, h3⟩ := arrayLoop_trace fuel inner reps cs st items st' hexec
  obtain ⟨h4, h5⟩ := reduceOption_length_facts tr
  exact ⟨tr, h1, h2, h3, by rw [h3, ← h2]; exact h4,
    fun hall => by rw [h3, ← h2]; exact h5 hall⟩

/-- Counterexample to C8 as stated: `Array(Translator(Byte, drop), 2)` — a
wrapped parser whose translator returns `None` — completes without any
fatal error, yet stores a list of length 0, not 2: `None` slots are
silently dropped by `Array.read`'s `elif result is not None`. -/
theorem c8_counterexample :
    ∃ q, mkArray (mkTranslator mkByte (fun _ => .none_) none) (.inl 2) = .ok q ∧
      parseTop 20 (withLabel q "a") [65, 66] = .ok [("a", .vList [])] ∧
      ([] : List Value).length ≠ 2 :=
  ⟨_, rfl, rfl, by decide⟩

/-- Closed witness for C8 at the same dropping `Array`: the two-iteration
trace is `[none, none]`, the returned items are `[]`. -/
theorem c8_array_slots_witness :
    ∃ tr, arrayTrace 10 (mkTranslator mkByte (fun _ => .none_) none) 2 [⟨[0]⟩]
        ⟨⟨[[]]⟩, ⟨[65, 66], 0, 0⟩⟩
      = (.ok tr, (arrayLoop 10 (mkTranslator mkByte (fun _ => .none_) none) 2
          [⟨[0]⟩] ⟨⟨[[]]⟩, ⟨[65, 66], 0, 0⟩⟩).2) ∧
      tr.length = 2 ∧ ([] : List Value) = tr.reduceOption ∧
      ([] : List Value).length ≤ 2 ∧
      ((∀ s ∈ tr, s ≠ none) → ([] : List Value).length = 2) :=
  c8_array_slots 10 (mkTranslator mkByte (fun _ => .none_) none) 2 [⟨[0]⟩]
    ⟨⟨[[]]⟩, ⟨[65, 66], 0, 0⟩⟩ []
    (arrayLoop 10 (mkTranslator mkByte (fun _ => .none_) none) 2
      [⟨[0]⟩] ⟨⟨[[]]⟩, ⟨[65, 66], 0, 0⟩⟩).2 rfl

end FormatBreaker
